import Mathlib

set_option maxHeartbeats 1600000

/-!
Verification of the natural-language specification of the graph traversal and
subgraph extraction library in model-optimizer/mo/utils/graph.py against a
shallow embedding of its code.

The embedding models a networkx MultiDiGraph as a list of nodes together with a
list of directed edges (parallel edges allowed, enumeration in insertion order,
the order a list preserves).  Node attributes used by the code (kind, op,
presence of a constant value) are modelled as attribute functions on node ids.
Python while-loops are modelled as fuel-indexed recursive functions returning
none when the fuel runs out; for each loop that terminates on all inputs a
computable fuel bound is defined and proved sufficient.
-/

/-- A directed multigraph over string node ids, mirroring a networkx
MultiDiGraph carrying the node attributes that mo/utils/graph.py reads:
the kind tag ('op' or 'data'), the operation tag op, and whether the node
carries a constant value.  networkx guarantees that both endpoints of every
edge are nodes of the graph, recorded here by the wf field. -/
structure MGraph where
  nodes : List String
  edges : List (String × String)
  kind : String → String
  opAttr : String → Option String
  hasValue : String → Bool
  wf : ∀ e ∈ edges, e.1 ∈ nodes ∧ e.2 ∈ nodes

/-- graph.out_edges(n): the edges leaving n, in edge insertion order. -/
def MGraph.outEdges (g : MGraph) (n : String) : List (String × String) :=
  g.edges.filter (fun e => decide (e.1 = n))

/-- graph.in_edges(n): the edges entering n, in edge insertion order. -/
def MGraph.inEdges (g : MGraph) (n : String) : List (String × String) :=
  g.edges.filter (fun e => decide (e.2 = n))

/-- node.in_node(id) for id in range(len(node.in_nodes())): the direct
predecessors of a node, addressed positionally in edge order. -/
def MGraph.inNodesOf (g : MGraph) (n : String) : List String :=
  (g.inEdges n).map (fun e => e.1)

/-- The single-step edge relation of the graph. -/
def edgeRel (g : MGraph) (a b : String) : Prop := (a, b) ∈ g.edges

/-- Forward reachability along directed edges. -/
def Reaches (g : MGraph) : String → String → Prop :=
  Relation.ReflTransGen (edgeRel g)

/-- Reachability from at least one node of a start list. -/
def ReachesAny (g : MGraph) (starts : List String) (x : String) : Prop :=
  ∃ s ∈ starts, Reaches g s x

/-- The graph has no directed cycle (no nonempty path from a node to itself). -/
def Acyclic (g : MGraph) : Prop := ∀ n, ¬ Relation.TransGen (edgeRel g) n n

/-!  backward_bfs_for_operation  -/

/-- One dequeue step of backward_bfs_for_operation: scan the predecessors of
the dequeued node in positional order; a matching operator node is recorded in
the result (deduplicated) and not enqueued, a non-matching operator node and a
data node without a value are enqueued, a data node with a value is a dead
end.  Returns the nodes to enqueue, in order, and the updated result list. -/
def bbfsScan (g : MGraph) (opNames : List String) :
    List String → List String → List String × List String
  | [], ret => ([], ret)
  | p :: ps, ret =>
    if g.kind p = "op" then
      match g.opAttr p with
      | some op =>
        if op ∈ opNames then
          bbfsScan g opNames ps (if p ∈ ret then ret else ret ++ [p])
        else
          let s := bbfsScan g opNames ps ret
          (p :: s.1, s.2)
      | none =>
        let s := bbfsScan g opNames ps ret
        (p :: s.1, s.2)
    else if g.kind p = "data" ∧ g.hasValue p = false then
      let s := bbfsScan g opNames ps ret
      (p :: s.1, s.2)
    else bbfsScan g opNames ps ret

/-- The while-loop of backward_bfs_for_operation, fuel-indexed: each step
dequeues the front node and processes its predecessors.  The source has no
visited set, so no fuel bound works for all graphs. -/
def bbfsLoop (g : MGraph) (opNames : List String) :
    Nat → List String → List String → Option (List String)
  | 0, _, _ => none
  | _ + 1, [], ret => some ret
  | fuel + 1, n :: rest, ret =>
    let s := bbfsScan g opNames (g.inNodesOf n) ret
    bbfsLoop g opNames fuel (rest ++ s.1) s.2

/-- backward_bfs_for_operation reaches its return statement precisely when its
queue empties after finitely many dequeues. -/
def bbfsTerminates (g : MGraph) (opNames : List String) (q ret : List String) : Prop :=
  ∃ fuel res, bbfsLoop g opNames fuel q ret = some res

/-- backward_bfs_for_operation, returning the ids of the matched nodes (the
source wraps them back into Node handles), as a fuel-indexed run of its
while-loop started from the singleton queue holding the start node. -/
def backward_bfs_for_operation (g : MGraph) (startNode : String)
    (opNames : List String) (fuel : Nat) : Option (List String) :=
  bbfsLoop g opNames fuel [startNode] []

/-- Potential function used to bound the queue growth of
backward_bfs_for_operation on graphs admitting a topological ranking:
bbW g k n with k at least the rank of n dominates 1 plus the total
potential of the predecessors of n. -/
def bbW (g : MGraph) : Nat → String → Nat
  | 0, _ => 1
  | k + 1, n => 1 + ((g.inNodesOf n).map (bbW g k)).sum

/-!  dfs  -/

/-- The inner for-loop of dfs: find the destination of the first outgoing edge
whose destination is not yet visited (the loop breaks at the first hit). -/
def dfsChild (visited : Finset String) : List (String × String) → Option String
  | [] => none
  | e :: es => if e.2 ∈ visited then dfsChild visited es else some e.2

/-- The while-loop of dfs, fuel-indexed.  Each step pops the front of the
stack, marks it visited, and either pushes it back under its first unvisited
successor or, when none exists, appends it to the postorder result. -/
def dfsLoop (g : MGraph) :
    Nat → List String → Finset String → List String →
    Option (List String × Finset String)
  | 0, _, _, _ => none
  | _ + 1, [], visited, order => some (order, visited)
  | fuel + 1, n :: rest, visited, order =>
    let visited1 := insert n visited
    match dfsChild visited1 (g.outEdges n) with
    | some c => dfsLoop g fuel (c :: n :: rest) visited1 order
    | none => dfsLoop g fuel rest visited1 (order ++ [n])

/-- A fuel bound sufficient for dfsLoop to drain its stack (proved below). -/
def dfsFuel (g : MGraph) : Nat := 3 * g.nodes.length + 7

def dfsRun (g : MGraph) (start : String) (visited : Finset String) :
    Option (List String × Finset String) :=
  dfsLoop g (dfsFuel g) [start] visited []

/-- dfs(graph, node_name, visited): returns the postorder list together with
the visited set it extended in place. -/
def dfs (g : MGraph) (start : String) (visited : Finset String) :
    List String × Finset String :=
  (dfsRun g start visited).getD ([], visited)

/-!  pseudo_topological_sort  -/

/-- The nodes with no incoming edges. -/
def nodesWithoutInputs (g : MGraph) : List String :=
  g.nodes.filter (fun n => (g.inEdges n).isEmpty)

/-- The for-loop of pseudo_topological_sort: run dfs from every not yet
visited zero-in-degree node, sharing the visited set and concatenating the
postorders. -/
def ptsFold (g : MGraph) :
    List String → List String × Finset String → List String × Finset String
  | [], acc => acc
  | n :: rest, acc =>
    if n ∈ acc.2 then ptsFold g rest acc
    else ptsFold g rest (acc.1 ++ (dfs g n acc.2).1, (dfs g n acc.2).2)

def pseudo_topological_sort (g : MGraph) (reverse : Bool) : List String :=
  let p := ptsFold g (nodesWithoutInputs g) ([], ∅)
  if reverse then p.1 else p.1.reverse

/-!  is_connected_component  -/

/-- The adjacent nodes considered by is_connected_component: sources of
incoming edges then destinations of outgoing edges, each restricted to
members of the given node list (edge direction ignored). -/
def iccAdj (g : MGraph) (nodeNames : List String) (cur : String) : List String :=
  ((g.inEdges cur).map (fun e => e.1)).filter (fun x => decide (x ∈ nodeNames)) ++
  ((g.outEdges cur).map (fun e => e.2)).filter (fun x => decide (x ∈ nodeNames))

/-- The inner for-loop of is_connected_component: enqueue and mark each
adjacent node not yet visited. -/
def iccEnq : List String → List String × Finset String → List String × Finset String
  | [], s => s
  | a :: rest, s =>
    if a ∈ s.2 then iccEnq rest s
    else iccEnq rest (s.1 ++ [a], insert a s.2)

/-- The while-loop of is_connected_component, fuel-indexed. -/
def iccLoop (g : MGraph) (nodeNames : List String) :
    Nat → List String → Finset String → Option (Finset String)
  | 0, _, _ => none
  | _ + 1, [], visited => some visited
  | fuel + 1, cur :: rest, visited =>
    let s := iccEnq (iccAdj g nodeNames cur) (rest, insert cur visited)
    iccLoop g nodeNames fuel s.1 s.2

/-- A fuel bound sufficient for iccLoop to drain its queue (proved below). -/
def iccFuel (g : MGraph) : Nat := g.nodes.length + 2

/-- is_connected_component: BFS from the first listed node over undirected
adjacency confined to the listed nodes, then check that every listed node was
visited.  An empty list returns true. -/
def is_connected_component (g : MGraph) (nodeNames : List String) : Bool :=
  match nodeNames with
  | [] => true
  | h :: t =>
    match iccLoop g nodeNames (iccFuel g) [h] {h} with
    | none => false
    | some visited => decide (∀ x ∈ h :: t, x ∈ visited)

/-- One undirected adjacency step confined to a node list: both endpoints are
members of the list and some edge joins them in either direction. -/
def undirRel (g : MGraph) (nodeNames : List String) (a b : String) : Prop :=
  a ∈ nodeNames ∧ b ∈ nodeNames ∧ ((a, b) ∈ g.edges ∨ (b, a) ∈ g.edges)

/-- Reachability through undirected edges both of whose endpoints lie in the
given node list. -/
def RReach (g : MGraph) (nodeNames : List String) : String → String → Prop :=
  Relation.ReflTransGen (undirRel g nodeNames)

/-!  sub_graph_between_nodes  -/

/-- The evolving state of the region-growth loop of sub_graph_between_nodes:
the result list, the visited set, the work queue, and the prev back-pointer
assignments in the order they were made (the code resets prev for all nodes to
None before the loop, so the assignment list starts empty). -/
structure SGState where
  subGraphNodes : List String
  visited : Finset String
  queue : List String
  prev : List (String × String)

/-- The outgoing-edge for-loop of the growth phase: enqueue, mark and
back-point each unvisited destination. -/
def sgProcessOut (cur : String) : List (String × String) → SGState → SGState
  | [], s => s
  | e :: es, s =>
    if e.2 ∈ s.visited then sgProcessOut cur es s
    else sgProcessOut cur es
      { s with queue := s.queue ++ [e.2], visited := insert e.2 s.visited,
               prev := s.prev ++ [(e.2, cur)] }

/-- The incoming-edge for-loop of the growth phase: for a dequeued node that
is not a start node, enqueue, mark and back-point each unvisited source. -/
def sgProcessIn (startNodes : List String) (cur : String) :
    List (String × String) → SGState → SGState
  | [], s => s
  | e :: es, s =>
    if cur ∉ startNodes ∧ e.1 ∉ s.visited then
      sgProcessIn startNodes cur es
        { s with queue := s.queue ++ [e.1], visited := insert e.1 s.visited,
                 prev := s.prev ++ [(e.1, cur)] }
    else sgProcessIn startNodes cur es s

/-- One dequeue step of the growth loop: append the dequeued node to the
result, traverse its outgoing edges unless it is an end node, and traverse its
incoming edges unless it is a start node. -/
def sgStep (g : MGraph) (startNodes endNodes : List String) (cur : String)
    (s : SGState) : SGState :=
  let s1 := { s with subGraphNodes := s.subGraphNodes ++ [cur] }
  let s2 := if cur ∈ endNodes then s1 else sgProcessOut cur (g.outEdges cur) s1
  sgProcessIn startNodes cur (g.inEdges cur) s2

/-- The growth while-loop of sub_graph_between_nodes, fuel-indexed. -/
def sgLoop (g : MGraph) (startNodes endNodes : List String) :
    Nat → SGState → Option SGState
  | 0, _ => none
  | fuel + 1, s =>
    match s.queue with
    | [] => some s
    | cur :: rest =>
      sgLoop g startNodes endNodes fuel
        (sgStep g startNodes endNodes cur { s with queue := rest })

/-- A fuel bound sufficient for sgLoop to drain its queue (proved below). -/
def sgFuel (g : MGraph) (startNodes : List String) : Nat :=
  g.nodes.length + startNodes.length + 2

/-- The initial growth state: visited seeded with the start nodes, queue
seeded the same way, prev reset. -/
def sgInit (startNodes : List String) : SGState :=
  { subGraphNodes := [], visited := startNodes.toFinset, queue := startNodes,
    prev := [] }

def sgRun (g : MGraph) (startNodes endNodes : List String) : Option SGState :=
  sgLoop g startNodes endNodes (sgFuel g startNodes) (sgInit startNodes)

def sgDefault : SGState :=
  { subGraphNodes := [], visited := ∅, queue := [], prev := [] }

/-- The visited accumulation of the reachability validation pass: a fresh
shared visited set extended in place by a forward dfs from every start node. -/
def forwardVisited (g : MGraph) (startNodes : List String) : Finset String :=
  startNodes.foldl (fun v s => (dfs g s v).2) ∅

/-- The two fatal error outcomes of sub_graph_between_nodes, carrying the
node ids their messages embed. -/
inductive SGError where
  | endNodeUnreachable (endNode : String) (startNodes : List String)
  | containsPlaceholder (node : String)
deriving DecidableEq

/-- sub_graph_between_nodes: grow the region, then fail on the first end node
missing from the forward-reachability accumulation, then fail on the first
region node whose op attribute is the graph-input sentinel 'Placeholder',
otherwise return the region node list. -/
def sub_graph_between_nodes (g : MGraph) (startNodes endNodes : List String) :
    Except SGError (List String) :=
  let s := (sgRun g startNodes endNodes).getD sgDefault
  let fv := forwardVisited g startNodes
  match endNodes.find? (fun e => !decide (e ∈ fv)) with
  | some e => .error (.endNodeUnreachable e startNodes)
  | none =>
    match s.subGraphNodes.find? (fun n => decide ((g.opAttr n).getD "" = "Placeholder")) with
    | some n => .error (.containsPlaceholder n)
    | none => .ok s.subGraphNodes

/-- Lookup of a prev back-pointer: the value of the first assignment to the
key (the keys are proved pairwise distinct, so the first is the only one). -/
def alookupS (l : List (String × String)) (k : String) : Option String :=
  match l.find? (fun p => decide (p.1 = k)) with
  | some p => some p.2
  | none => none

/-- Iterated following of prev back-pointers, as done by the diagnostic
path-reconstruction loop: each step replaces the current node by its prev
value, stopping (at none) on a node whose prev was never assigned. -/
def prevFollow (prev : List (String × String)) : Nat → Option String → Option String
  | 0, c => c
  | _ + 1, none => none
  | k + 1, some x => prevFollow prev k (alookupS prev x)

/-- The keys of the prev assignment list, in assignment order. -/
def prevKeys (prev : List (String × String)) : List String :=
  prev.map (fun p => p.1)

/-!  node_neighbourhood  -/

/-- Lookup in the dist dictionary, modelled as an insertion-ordered
association list. -/
def alookupN (l : List (String × Nat)) (k : String) : Option Nat :=
  match l.find? (fun p => decide (p.1 = k)) with
  | some p => some p.2
  | none => none

/-- In-place update of the value stored under a key of the dist dictionary:
the key keeps its position. -/
def aupdateN (l : List (String × Nat)) (k : String) (v : Nat) : List (String × Nat) :=
  l.map (fun p => if p.1 = k then (k, v) else p)

/-- All nodes reachable from the start in at most k applications of the
neighbour function.  Only used for fuel bounds and for characterising the
result of node_neighbourhood. -/
def ball (f : String → List String) (start : String) : Nat → List String
  | 0 => [start]
  | k + 1 => (ball f start k ++ (ball f start k).flatMap f).dedup

/-- The state of the node_neighbourhood loop: the dist dictionary (insertion
ordered, as a Python dict) and the work deque. -/
structure NNState where
  dist : List (String × Nat)
  deq : List String

/-- The inner for-loop of node_neighbourhood: dist.setdefault(next, depth+1)
inserts depth+1 for an unseen node; any node whose stored distance exceeds
curDist + 1 is relaxed to curDist + 1 and re-enqueued. -/
def nnRelax (depth curDist : Nat) : List String → NNState → NNState
  | [], s => s
  | m :: rest, s =>
    match alookupN s.dist m with
    | some d =>
      if curDist + 1 < d then
        nnRelax depth curDist rest
          { dist := aupdateN s.dist m (curDist + 1), deq := s.deq ++ [m] }
      else nnRelax depth curDist rest s
    | none =>
      if curDist + 1 < depth + 1 then
        nnRelax depth curDist rest
          { dist := aupdateN (s.dist ++ [(m, depth + 1)]) m (curDist + 1),
            deq := s.deq ++ [m] }
      else nnRelax depth curDist rest { s with dist := s.dist ++ [(m, depth + 1)] }

/-- The while-loop of node_neighbourhood, fuel-indexed: nodes whose current
distance has reached the depth bound are not expanded. -/
def nnLoop (f : String → List String) (depth : Nat) : Nat → NNState → Option NNState
  | 0, _ => none
  | fuel + 1, s =>
    match s.deq with
    | [] => some s
    | cur :: rest =>
      let curDist := (alookupN s.dist cur).getD 0
      if curDist < depth then
        nnLoop f depth fuel (nnRelax depth curDist (f cur) { dist := s.dist, deq := rest })
      else nnLoop f depth fuel { dist := s.dist, deq := rest }

/-- A fuel bound sufficient for nnLoop to drain its deque (proved below). -/
def nnFuel (f : String → List String) (start : String) (depth : Nat) : Nat :=
  (ball f start depth).length * (depth + 2) + 2

/-- node_neighbourhood: bounded-depth relaxation search from the start node;
returns the keys of the dist dictionary in insertion order. -/
def node_neighbourhood (f : String → List String) (start : String) (depth : Nat) :
    List String :=
  match nnLoop f depth (nnFuel f start depth) { dist := [(start, 0)], deq := [start] } with
  | some s => s.dist.map (fun p => p.1)
  | none => []

/-- The precedence invariant of a postorder prefix: every edge whose source
already occurs in the list has its destination either in the baseline visited
set or strictly earlier in the list. -/
def topoInv (g : MGraph) (V : Finset String) (order : List String) : Prop :=
  ∀ e ∈ g.edges, ∀ l1 l2, order = l1 ++ e.1 :: l2 → e.2 ∈ V ∨ e.2 ∈ l1

/-- Extra weight carried by a dfs stack whose top is already visited. -/
def grayBonus (stack : List String) (visited : Finset String) : Nat :=
  match stack with
  | [] => 0
  | n :: _ => if n ∈ visited then 2 else 0

/-- Termination measure of the dfs while-loop. -/
def dfsMeasure (univ : Finset String) (stack : List String)
    (visited : Finset String) : Nat :=
  3 * (univ \ visited).card + stack.length + grayBonus stack visited

/-- Termination measure of visited-guarded BFS-style loops: unvisited
universe nodes plus pending queue entries. -/
def bfsMeasure (univ : Finset String) (queue : List String)
    (visited : Finset String) : Nat :=
  (univ \ visited).card + queue.length

/-- The keys of the dist dictionary, in insertion order; the result of
node_neighbourhood is exactly this list. -/
def distKeys (l : List (String × Nat)) : List String := l.map (fun p => p.1)

/-- Invariant of the node_neighbourhood loop: keys are unique, the start node
keeps distance 0, every stored distance d is at most the depth bound and
witnessed by membership in the d-th ball, every queued node is a key, and
every key with distance below the bound either has all its neighbours stored
within distance d + 1 or is still pending in the deque. -/
def nnInv (f : String → List String) (start : String) (depth : Nat)
    (s : NNState) : Prop :=
  (distKeys s.dist).Nodup ∧
  alookupN s.dist start = some 0 ∧
  (∀ n d, alookupN s.dist n = some d → d ≤ depth ∧ n ∈ ball f start d) ∧
  (∀ x ∈ s.deq, x ∈ distKeys s.dist) ∧
  (∀ n d, alookupN s.dist n = some d → d < depth →
    (∀ m ∈ f n, ∃ dm, alookupN s.dist m = some dm ∧ dm ≤ d + 1) ∨ n ∈ s.deq)

/-- Termination potential of the node_neighbourhood loop: total outstanding
distance over the depth-bounded ball, counting absent nodes as depth + 2. -/
def nnPotential (f : String → List String) (start : String) (depth : Nat)
    (dist : List (String × Nat)) : Nat :=
  Finset.sum (ball f start depth).toFinset
    (fun n => min ((alookupN dist n).getD (depth + 2)) (depth + 2))

/-- Invariant of the growth loop of sub_graph_between_nodes, tying the
visited set to the prev assignments: the visited set is exactly the start set
plus the assigned keys, each key is assigned at most once and is not a start
node, every queued node is visited, and every assignment points to a start
node or to an earlier-assigned key. -/
def sgInv (startNodes : List String) (s : SGState) : Prop :=
  (∀ x, x ∈ s.visited ↔ x ∈ startNodes ∨ x ∈ prevKeys s.prev) ∧
  (prevKeys s.prev).Nodup ∧
  (∀ x ∈ s.queue, x ∈ s.visited) ∧
  (∀ l1 k v l2, s.prev = l1 ++ (k, v) :: l2 → v ∈ startNodes ∨ v ∈ prevKeys l1) ∧
  (∀ k ∈ prevKeys s.prev, k ∉ startNodes)

/-!  Concrete graphs used to witness or refute individual claims. -/

/-- The four-node chain A -> B -> C -> D with no distinguished attributes. -/
def chainABCD : MGraph :=
  { nodes := ["A", "B", "C", "D"],
    edges := [("A", "B"), ("B", "C"), ("C", "D")],
    kind := fun _ => "op", opAttr := fun _ => none, hasValue := fun _ => false,
    wf := by decide }

/-- The three-node chain A -> B -> C. -/
def chainABC : MGraph :=
  { nodes := ["A", "B", "C"],
    edges := [("A", "B"), ("B", "C")],
    kind := fun _ => "op", opAttr := fun _ => none, hasValue := fun _ => false,
    wf := by decide }

/-- A single operator node carrying a self-loop, its op tag not matched by the
backward search. -/
def gSelfLoop : MGraph :=
  { nodes := ["A"], edges := [("A", "A")],
    kind := fun _ => "op", opAttr := fun _ => some "X", hasValue := fun _ => false,
    wf := by decide }

/-- start S fed through a valueless data node D by a Conv operator C, which is
itself fed by another Conv operator X (to observe that search stops at C). -/
def gBB1 : MGraph :=
  { nodes := ["X", "C", "D", "S"],
    edges := [("X", "C"), ("C", "D"), ("D", "S")],
    kind := fun n => if n = "D" then "data" else "op",
    opAttr := fun n => if n = "C" then some "Conv" else
      if n = "X" then some "Conv" else some "Other",
    hasValue := fun _ => false,
    wf := by decide }

/-- start S fed through a data node D2 that carries a constant value, with a
Conv operator C2 behind it (to observe that the constant is a dead end). -/
def gBB2 : MGraph :=
  { nodes := ["C2", "D2", "S"],
    edges := [("C2", "D2"), ("D2", "S")],
    kind := fun n => if n = "D2" then "data" else "op",
    opAttr := fun n => if n = "C2" then some "Conv" else some "Other",
    hasValue := fun n => n = "D2",
    wf := by decide }

/-- Edge A -> B plus an isolated node C unreachable from A. -/
def gUnreach : MGraph :=
  { nodes := ["A", "B", "C"], edges := [("A", "B")],
    kind := fun _ => "op", opAttr := fun _ => none, hasValue := fun _ => false,
    wf := by decide }

/-- Edge A -> B where B carries the graph-input sentinel op tag. -/
def gPlc : MGraph :=
  { nodes := ["A", "B"], edges := [("A", "B")],
    kind := fun _ => "op",
    opAttr := fun n => if n = "B" then some "Placeholder" else none,
    hasValue := fun _ => false,
    wf := by decide }

/-- A single node with no edges. -/
def singleA : MGraph :=
  { nodes := ["A"], edges := [],
    kind := fun _ => "op", opAttr := fun _ => none, hasValue := fun _ => false,
    wf := by decide }

/-!  Theorems.  First: termination of the dfs while-loop within its fuel. -/

theorem dfsChild_eq_some {visited : Finset String} {l : List (String × String)}
    {c : String} (h : dfsChild visited l = some c) :
    c ∉ visited ∧ ∃ e ∈ l, e.2 = c := by
  induction l with
  | nil => simp [dfsChild] at h
  | cons e es ih =>
    by_cases he : e.2 ∈ visited
    · simp only [dfsChild, if_pos he] at h
      rcases ih h with ⟨h1, e', he', hc⟩
      exact ⟨h1, e', List.mem_cons_of_mem _ he', hc⟩
    · simp only [dfsChild, if_neg he, Option.some.injEq] at h
      exact ⟨h ▸ he, e, List.mem_cons_self e es, h⟩

theorem dfsChild_eq_none {visited : Finset String} {l : List (String × String)}
    (h : dfsChild visited l = none) : ∀ e ∈ l, e.2 ∈ visited := by
  induction l with
  | nil => simp
  | cons e es ih =>
    by_cases he : e.2 ∈ visited
    · simp only [dfsChild, if_pos he] at h
      intro e' he'
      rcases List.mem_cons.mp he' with h1 | h1
      · exact h1 ▸ he
      · exact ih h e' h1
    · simp [dfsChild, if_neg he] at h

theorem outEdges_subset {g : MGraph} {n : String} {e : String × String}
    (h : e ∈ g.outEdges n) : e ∈ g.edges ∧ e.1 = n := by
  have := List.of_mem_filter h
  exact ⟨List.mem_of_mem_filter h, by simpa using this⟩

theorem inEdges_subset {g : MGraph} {n : String} {e : String × String}
    (h : e ∈ g.inEdges n) : e ∈ g.edges ∧ e.2 = n := by
  have := List.of_mem_filter h
  exact ⟨List.mem_of_mem_filter h, by simpa using this⟩

theorem mem_outEdges {g : MGraph} {n : String} {e : String × String} :
    e ∈ g.outEdges n ↔ e ∈ g.edges ∧ e.1 = n := by
  constructor
  · exact outEdges_subset
  · intro ⟨h1, h2⟩
    exact List.mem_filter.mpr ⟨h1, by simpa using h2⟩

theorem mem_inEdges {g : MGraph} {n : String} {e : String × String} :
    e ∈ g.inEdges n ↔ e ∈ g.edges ∧ e.2 = n := by
  constructor
  · exact inEdges_subset
  · intro ⟨h1, h2⟩
    exact List.mem_filter.mpr ⟨h1, by simpa using h2⟩

theorem grayBonus_le (stack : List String) (visited : Finset String) :
    grayBonus stack visited ≤ 2 := by
  match stack with
  | [] => simp [grayBonus]
  | n :: rest =>
    simp only [grayBonus]
    split <;> omega

theorem card_sdiff_insert_of_mem {univ visited : Finset String} {n : String}
    (hn : n ∈ univ) (hnv : n ∉ visited) :
    (univ \ insert n visited).card + 1 = (univ \ visited).card := by
  have h1 : univ \ insert n visited = (univ \ visited).erase n := by
    ext x
    simp only [Finset.mem_sdiff, Finset.mem_insert, Finset.mem_erase]
    tauto
  rw [h1, Finset.card_erase_of_mem (Finset.mem_sdiff.mpr ⟨hn, hnv⟩)]
  have : 0 < (univ \ visited).card :=
    Finset.card_pos.mpr ⟨n, Finset.mem_sdiff.mpr ⟨hn, hnv⟩⟩
  omega

theorem grayBonus_cons (n : String) (rest : List String) (visited : Finset String) :
    grayBonus (n :: rest) visited = if n ∈ visited then 2 else 0 := rfl

theorem dfsLoop_isSome (g : MGraph) (univ : Finset String)
    (hedge : ∀ e ∈ g.edges, e.2 ∈ univ) :
    ∀ fuel stack visited order, (∀ x ∈ stack, x ∈ univ) →
    dfsMeasure univ stack visited < fuel →
    (dfsLoop g fuel stack visited order).isSome := by
  intro fuel
  induction fuel with
  | zero => intro stack visited order _ h; omega
  | succ fuel ih =>
    intro stack visited order hstack hm
    match stack with
    | [] => simp [dfsLoop]
    | n :: rest =>
      have hn : n ∈ univ := hstack n (List.mem_cons_self n rest)
      rcases hc : dfsChild (insert n visited) (g.outEdges n) with _ | c
      · -- no unvisited child: pop and append
        simp only [dfsLoop, hc]
        apply ih rest (insert n visited) (order ++ [n])
        · intro x hx; exact hstack x (List.mem_cons_of_mem _ hx)
        · have hb := grayBonus_le rest (insert n visited)
          by_cases hnv : n ∈ visited
          · have hv : insert n visited = visited := Finset.insert_eq_self.mpr hnv
            rw [hv] at hb ⊢
            simp only [dfsMeasure, grayBonus_cons, if_pos hnv, List.length_cons] at hm
            simp only [dfsMeasure]
            omega
          · have hcard := card_sdiff_insert_of_mem hn hnv
            simp only [dfsMeasure, grayBonus_cons, if_neg hnv, List.length_cons] at hm
            simp only [dfsMeasure]
            omega
      · -- unvisited child c: push it
        simp only [dfsLoop, hc]
        rcases dfsChild_eq_some hc with ⟨hcnv, e, he, hec⟩
        have hcu : c ∈ univ := hec ▸ hedge e (outEdges_subset he).1
        apply ih (c :: n :: rest) (insert n visited) order
        · intro x hx
          rcases List.mem_cons.mp hx with h1 | h1
          · exact h1 ▸ hcu
          · exact hstack x h1
        · by_cases hnv : n ∈ visited
          · have hv : insert n visited = visited := Finset.insert_eq_self.mpr hnv
            rw [hv] at hcnv ⊢
            simp only [dfsMeasure, grayBonus_cons, if_pos hnv, List.length_cons] at hm
            simp only [dfsMeasure, grayBonus_cons, if_neg hcnv, List.length_cons]
            omega
          · have hcard := card_sdiff_insert_of_mem hn hnv
            simp only [dfsMeasure, grayBonus_cons, if_neg hnv, List.length_cons] at hm
            simp only [dfsMeasure, grayBonus_cons, if_neg hcnv, List.length_cons]
            omega

theorem dfsRun_isSome (g : MGraph) (start : String) (visited : Finset String) :
    (dfsRun g start visited).isSome := by
  apply dfsLoop_isSome g (insert start g.nodes.toFinset)
  · intro e he
    exact Finset.mem_insert_of_mem (List.mem_toFinset.mpr (g.wf e he).2)
  · intro x hx
    rcases List.mem_cons.mp hx with h1 | h1
    · subst h1; exact Finset.mem_insert_self _ _
    · simp at h1
  · have h1 : (insert start g.nodes.toFinset \ visited).card ≤ g.nodes.length + 1 := by
      calc (insert start g.nodes.toFinset \ visited).card
          ≤ (insert start g.nodes.toFinset).card := Finset.card_le_card (Finset.sdiff_subset)
        _ ≤ g.nodes.toFinset.card + 1 := Finset.card_insert_le start _
        _ ≤ g.nodes.length + 1 := by
            have := g.nodes.toFinset_card_le
            omega
    have h2 := grayBonus_le [start] visited
    simp only [dfsMeasure, dfsFuel, List.length_cons, List.length_nil]
    omega

theorem dfsRun_eq (g : MGraph) (start : String) (visited : Finset String) :
    dfsRun g start visited = some (dfs g start visited) := by
  have h := dfsRun_isSome g start visited
  rcases hr : dfsRun g start visited with _ | p
  · rw [hr] at h; simp at h
  · simp [dfs, hr]

/-!  Invariants of the dfs while-loop. -/

theorem dfsLoop_visited_mono (g : MGraph) :
    ∀ fuel stack visited order orderF visitedF,
    dfsLoop g fuel stack visited order = some (orderF, visitedF) →
    visited ⊆ visitedF := by
  intro fuel
  induction fuel with
  | zero => intro stack visited order oF vF h; simp [dfsLoop] at h
  | succ fuel ih =>
    intro stack visited order oF vF h
    match stack with
    | [] =>
      simp only [dfsLoop, Option.some.injEq, Prod.mk.injEq] at h
      exact h.2 ▸ Finset.Subset.refl _
    | n :: rest =>
      rcases hc : dfsChild (insert n visited) (g.outEdges n) with _ | c <;>
        simp only [dfsLoop, hc] at h
      · exact fun x hx => ih _ _ _ _ _ h (Finset.mem_insert_of_mem hx)
      · exact fun x hx => ih _ _ _ _ _ h (Finset.mem_insert_of_mem hx)

theorem dfsLoop_order_prefix (g : MGraph) :
    ∀ fuel stack visited order orderF visitedF,
    dfsLoop g fuel stack visited order = some (orderF, visitedF) →
    ∃ t, orderF = order ++ t := by
  intro fuel
  induction fuel with
  | zero => intro stack visited order oF vF h; simp [dfsLoop] at h
  | succ fuel ih =>
    intro stack visited order oF vF h
    match stack with
    | [] =>
      simp only [dfsLoop, Option.some.injEq, Prod.mk.injEq] at h
      exact ⟨[], by simp [h.1]⟩
    | n :: rest =>
      rcases hc : dfsChild (insert n visited) (g.outEdges n) with _ | c <;>
        simp only [dfsLoop, hc] at h
      · rcases ih _ _ _ _ _ h with ⟨t, ht⟩
        exact ⟨[n] ++ t, by simp [ht]⟩
      · exact ih _ _ _ _ _ h

theorem dfsLoop_stack_complete (g : MGraph) :
    ∀ fuel stack visited order orderF visitedF,
    dfsLoop g fuel stack visited order = some (orderF, visitedF) →
    ∀ x ∈ stack, x ∈ orderF := by
  intro fuel
  induction fuel with
  | zero => intro stack visited order oF vF h; simp [dfsLoop] at h
  | succ fuel ih =>
    intro stack visited order oF vF h
    match stack with
    | [] => intro x hx; simp at hx
    | n :: rest =>
      rcases hc : dfsChild (insert n visited) (g.outEdges n) with _ | c <;>
        simp only [dfsLoop, hc] at h
      · intro x hx
        rcases List.mem_cons.mp hx with h1 | h1
        · rcases dfsLoop_order_prefix g _ _ _ _ _ _ h with ⟨t, ht⟩
          subst h1
          exact ht ▸ (by simp)
        · exact ih _ _ _ _ _ h x h1
      · intro x hx
        exact ih _ _ _ _ _ h x (List.mem_cons_of_mem _ hx)

theorem dfsLoop_order_source (g : MGraph) :
    ∀ fuel stack visited order orderF visitedF,
    dfsLoop g fuel stack visited order = some (orderF, visitedF) →
    ∀ x ∈ orderF, x ∈ order ∨ x ∈ stack ∨ x ∉ visited := by
  intro fuel
  induction fuel with
  | zero => intro stack visited order oF vF h; simp [dfsLoop] at h
  | succ fuel ih =>
    intro stack visited order oF vF h
    match stack with
    | [] =>
      simp only [dfsLoop, Option.some.injEq, Prod.mk.injEq] at h
      intro x hx
      exact Or.inl (h.1 ▸ hx)
    | n :: rest =>
      rcases hc : dfsChild (insert n visited) (g.outEdges n) with _ | c <;>
        simp only [dfsLoop, hc] at h
      · intro x hx
        rcases ih _ _ _ _ _ h x hx with h1 | h1 | h1
        · rcases List.mem_append.mp h1 with h2 | h2
          · exact Or.inl h2
          · simp at h2
            exact Or.inr (Or.inl (h2 ▸ List.mem_cons_self n rest))
        · exact Or.inr (Or.inl (List.mem_cons_of_mem _ h1))
        · exact Or.inr (Or.inr (fun hv => h1 (Finset.mem_insert_of_mem hv)))
      · intro x hx
        rcases ih _ _ _ _ _ h x hx with h1 | h1 | h1
        · exact Or.inl h1
        · rcases List.mem_cons.mp h1 with h2 | h2
          · -- x is the pushed child c, unvisited before the push
            rcases dfsChild_eq_some hc with ⟨hcnv, _⟩
            subst h2
            exact Or.inr (Or.inr (fun hv => hcnv (Finset.mem_insert_of_mem hv)))
          · exact Or.inr (Or.inl h2)
        · exact Or.inr (Or.inr (fun hv => h1 (Finset.mem_insert_of_mem hv)))

theorem dfsLoop_visited_source (g : MGraph) :
    ∀ fuel stack visited order orderF visitedF,
    dfsLoop g fuel stack visited order = some (orderF, visitedF) →
    ∀ x ∈ visitedF, x ∈ visited ∨ x ∈ stack ∨ x ∈ orderF := by
  intro fuel
  induction fuel with
  | zero => intro stack visited order oF vF h; simp [dfsLoop] at h
  | succ fuel ih =>
    intro stack visited order oF vF h
    match stack with
    | [] =>
      simp only [dfsLoop, Option.some.injEq, Prod.mk.injEq] at h
      intro x hx
      exact Or.inl (h.2 ▸ hx)
    | n :: rest =>
      rcases hc : dfsChild (insert n visited) (g.outEdges n) with _ | c <;>
        simp only [dfsLoop, hc] at h
      · intro x hx
        rcases ih _ _ _ _ _ h x hx with h1 | h1 | h1
        · rcases Finset.mem_insert.mp h1 with h2 | h2
          · exact Or.inr (Or.inl (h2 ▸ List.mem_cons_self n rest))
          · exact Or.inl h2
        · exact Or.inr (Or.inl (List.mem_cons_of_mem _ h1))
        · exact Or.inr (Or.inr h1)
      · intro x hx
        rcases ih _ _ _ _ _ h x hx with h1 | h1 | h1
        · rcases Finset.mem_insert.mp h1 with h2 | h2
          · exact Or.inr (Or.inl (h2 ▸ List.mem_cons_self n rest))
          · exact Or.inl h2
        · -- x sits on the extended stack: every stack entry is eventually output
          exact Or.inr (Or.inr (dfsLoop_stack_complete g _ _ _ _ _ _ h x h1))
        · exact Or.inr (Or.inr h1)

theorem dfsLoop_order_visited (g : MGraph) :
    ∀ fuel stack visited order orderF visitedF,
    dfsLoop g fuel stack visited order = some (orderF, visitedF) →
    (∀ x ∈ order, x ∈ visited) → ∀ x ∈ orderF, x ∈ visitedF := by
  intro fuel
  induction fuel with
  | zero => intro stack visited order oF vF h; simp [dfsLoop] at h
  | succ fuel ih =>
    intro stack visited order oF vF h hov
    match stack with
    | [] =>
      simp only [dfsLoop, Option.some.injEq, Prod.mk.injEq] at h
      intro x hx
      exact h.2 ▸ hov x (h.1 ▸ hx)
    | n :: rest =>
      rcases hc : dfsChild (insert n visited) (g.outEdges n) with _ | c <;>
        simp only [dfsLoop, hc] at h
      · apply ih _ _ _ _ _ h
        intro x hx
        rcases List.mem_append.mp hx with h1 | h1
        · exact Finset.mem_insert_of_mem (hov x h1)
        · simp at h1
          exact h1 ▸ Finset.mem_insert_self n visited
      · apply ih _ _ _ _ _ h
        intro x hx
        exact Finset.mem_insert_of_mem (hov x hx)

theorem dfsLoop_closure (g : MGraph) :
    ∀ fuel stack visited order orderF visitedF,
    dfsLoop g fuel stack visited order = some (orderF, visitedF) →
    (∀ e ∈ g.edges, e.1 ∈ order → e.2 ∈ visited) →
    ∀ e ∈ g.edges, e.1 ∈ orderF → e.2 ∈ visitedF := by
  intro fuel
  induction fuel with
  | zero => intro stack visited order oF vF h; simp [dfsLoop] at h
  | succ fuel ih =>
    intro stack visited order oF vF h hcl
    match stack with
    | [] =>
      simp only [dfsLoop, Option.some.injEq, Prod.mk.injEq] at h
      intro e he h1
      exact h.2 ▸ hcl e he (h.1 ▸ h1)
    | n :: rest =>
      rcases hc : dfsChild (insert n visited) (g.outEdges n) with _ | c <;>
        simp only [dfsLoop, hc] at h
      · apply ih _ _ _ _ _ h
        intro e he h1
        rcases List.mem_append.mp h1 with h2 | h2
        · exact Finset.mem_insert_of_mem (hcl e he h2)
        · simp at h2
          -- e leaves n, and n has no unvisited successor left
          exact dfsChild_eq_none hc e (mem_outEdges.mpr ⟨he, h2⟩)
      · apply ih _ _ _ _ _ h
        intro e he h1
        exact Finset.mem_insert_of_mem (hcl e he h1)

theorem dfsLoop_reach_sound (g : MGraph) :
    ∀ fuel stack visited order orderF visitedF,
    dfsLoop g fuel stack visited order = some (orderF, visitedF) →
    ∀ x ∈ visitedF, x ∈ visited ∨ ∃ s ∈ stack, Reaches g s x := by
  intro fuel
  induction fuel with
  | zero => intro stack visited order oF vF h; simp [dfsLoop] at h
  | succ fuel ih =>
    intro stack visited order oF vF h
    match stack with
    | [] =>
      simp only [dfsLoop, Option.some.injEq, Prod.mk.injEq] at h
      intro x hx
      exact Or.inl (h.2 ▸ hx)
    | n :: rest =>
      rcases hc : dfsChild (insert n visited) (g.outEdges n) with _ | c <;>
        simp only [dfsLoop, hc] at h
      · intro x hx
        rcases ih _ _ _ _ _ h x hx with h1 | ⟨s, hs, hr⟩
        · rcases Finset.mem_insert.mp h1 with h2 | h2
          · exact Or.inr ⟨n, List.mem_cons_self n rest, h2 ▸ Relation.ReflTransGen.refl⟩
          · exact Or.inl h2
        · exact Or.inr ⟨s, List.mem_cons_of_mem _ hs, hr⟩
      · intro x hx
        rcases ih _ _ _ _ _ h x hx with h1 | ⟨s, hs, hr⟩
        · rcases Finset.mem_insert.mp h1 with h2 | h2
          · exact Or.inr ⟨n, List.mem_cons_self n rest, h2 ▸ Relation.ReflTransGen.refl⟩
          · exact Or.inl h2
        · rcases List.mem_cons.mp hs with h2 | h2
          · -- s is the pushed child: prepend the edge from n to it
            rcases dfsChild_eq_some hc with ⟨_, e, he, hec⟩
            rcases outEdges_subset he with ⟨hee, he1⟩
            refine Or.inr ⟨n, List.mem_cons_self n rest, Relation.ReflTransGen.head ?_ (h2 ▸ hr)⟩
            show (n, c) ∈ g.edges
            have he2 : e = (n, c) := by
              rcases e with ⟨a, b⟩
              simp only at he1 hec
              rw [he1, hec]
            exact he2 ▸ hee
          · exact Or.inr ⟨s, h2, hr⟩

theorem dfsLoop_nodup (g : MGraph) :
    ∀ fuel stack visited order orderF visitedF,
    dfsLoop g fuel stack visited order = some (orderF, visitedF) →
    order.Nodup → stack.Nodup → (∀ x ∈ stack.tail, x ∈ visited) →
    (∀ x ∈ stack, x ∉ order) → (∀ x ∈ order, x ∈ visited) →
    orderF.Nodup := by
  intro fuel
  induction fuel with
  | zero => intro stack visited order oF vF h; simp [dfsLoop] at h
  | succ fuel ih =>
    intro stack visited order oF vF h ho hs hsv hso hov
    match stack with
    | [] =>
      simp only [dfsLoop, Option.some.injEq, Prod.mk.injEq] at h
      exact h.1 ▸ ho
    | n :: rest =>
      have hrestv : ∀ x ∈ rest, x ∈ visited := hsv
      rcases hc : dfsChild (insert n visited) (g.outEdges n) with _ | c <;>
        simp only [dfsLoop, hc] at h
      · -- append n to the order
        apply ih _ _ _ _ _ h
        · rw [List.nodup_append]
          refine ⟨ho, List.nodup_singleton n, ?_⟩
          intro x hx hx2
          simp at hx2
          exact hso n (List.mem_cons_self n rest) (hx2 ▸ hx)
        · exact hs.of_cons
        · intro x hx
          exact Finset.mem_insert_of_mem (hrestv x (List.mem_of_mem_tail hx))
        · intro x hx hx2
          rcases List.mem_append.mp hx2 with h1 | h1
          · exact hso x (List.mem_cons_of_mem _ hx) h1
          · simp at h1
            exact (List.nodup_cons.mp hs).1 (h1 ▸ hx)
        · intro x hx
          rcases List.mem_append.mp hx with h1 | h1
          · exact Finset.mem_insert_of_mem (hov x h1)
          · simp at h1
            exact h1 ▸ Finset.mem_insert_self n visited
      · -- push the unvisited child c
        rcases dfsChild_eq_some hc with ⟨hcnv, _⟩
        apply ih _ _ _ _ _ h ho
        · rw [List.nodup_cons]
          refine ⟨?_, hs⟩
          intro hcmem
          rcases List.mem_cons.mp hcmem with h1 | h1
          · exact hcnv (h1 ▸ Finset.mem_insert_self n visited)
          · exact hcnv (Finset.mem_insert_of_mem (hrestv c h1))
        · intro x hx
          rcases List.mem_cons.mp hx with h1 | h1
          · exact h1 ▸ Finset.mem_insert_self n visited
          · exact Finset.mem_insert_of_mem (hrestv x h1)
        · intro x hx hx2
          rcases List.mem_cons.mp hx with h1 | h1
          · exact hcnv (h1 ▸ Finset.mem_insert_of_mem (hov x hx2))
          · exact hso x h1 hx2
        · intro x hx
          exact Finset.mem_insert_of_mem (hov x hx)

theorem append_singleton_split {α : Type} {order l1 l2 : List α} {u n : α}
    (h : order ++ [n] = l1 ++ u :: l2) :
    (l1 = order ∧ u = n ∧ l2 = []) ∨
    ∃ l2', l2 = l2' ++ [n] ∧ order = l1 ++ u :: l2' := by
  rcases List.eq_nil_or_concat l2 with rfl | ⟨l2', x, rfl⟩
  · left
    have hlen : order.length = l1.length := by
      have := congrArg List.length h
      simp at this
      omega
    rcases List.append_inj h hlen with ⟨h1, h2⟩
    simp only [List.cons.injEq, and_true] at h2
    exact ⟨h1.symm, h2.symm, rfl⟩
  · right
    have h' : order ++ [n] = (l1 ++ u :: l2') ++ [x] := by rw [h]; simp
    have hlen : order.length = (l1 ++ u :: l2').length := by
      have := congrArg List.length h'
      simp at this
      simp
      omega
    rcases List.append_inj h' hlen with ⟨h1, h2⟩
    simp only [List.cons.injEq, and_true] at h2
    exact ⟨l2', by rw [h2, List.concat_eq_append], h1⟩

theorem dfsLoop_topo (g : MGraph) (rank : String → Nat)
    (hrank : ∀ e ∈ g.edges, rank e.1 < rank e.2) (V : Finset String) :
    ∀ fuel stack visited order orderF visitedF,
    dfsLoop g fuel stack visited order = some (orderF, visitedF) →
    List.Pairwise (fun a b => rank b < rank a) stack →
    (∀ x ∈ visited, x ∈ V ∨ x ∈ order ∨ x ∈ stack) →
    topoInv g V order →
    topoInv g V orderF := by
  intro fuel
  induction fuel with
  | zero => intro stack visited order oF vF h; simp [dfsLoop] at h
  | succ fuel ih =>
    intro stack visited order oF vF h hpw hP1 htopo
    match stack with
    | [] =>
      simp only [dfsLoop, Option.some.injEq, Prod.mk.injEq] at h
      exact h.1 ▸ htopo
    | n :: rest =>
      rcases hc : dfsChild (insert n visited) (g.outEdges n) with _ | c <;>
        simp only [dfsLoop, hc] at h
      · -- no unvisited successor: n is appended to the order
        apply ih _ _ _ _ _ h
        · exact hpw.of_cons
        · intro x hx
          rcases Finset.mem_insert.mp hx with h1 | h1
          · exact Or.inr (Or.inl (by simp [h1]))
          · rcases hP1 x h1 with h2 | h2 | h2
            · exact Or.inl h2
            · exact Or.inr (Or.inl (List.mem_append_left _ h2))
            · rcases List.mem_cons.mp h2 with h3 | h3
              · exact Or.inr (Or.inl (by simp [h3]))
              · exact Or.inr (Or.inr h3)
        · intro e he l1 l2 hsplit
          rcases append_singleton_split hsplit with ⟨hl1, hu, -⟩ | ⟨l2', -, horder⟩
          · -- e leaves n, the newly appended node
            have he2 : e.2 ∈ insert n visited :=
              dfsChild_eq_none hc e (mem_outEdges.mpr ⟨he, hu⟩)
            have hrk := hrank e he
            rcases Finset.mem_insert.mp he2 with h1 | h1
            · -- a self-loop contradicts the ranking
              rw [hu, h1] at hrk
              omega
            · rcases hP1 e.2 h1 with h2 | h2 | h2
              · exact Or.inl h2
              · exact Or.inr (hl1 ▸ h2)
              · rcases List.mem_cons.mp h2 with h3 | h3
                · rw [hu, h3] at hrk
                  omega
                · -- e.2 deeper on the stack has smaller rank than n: impossible
                  have := (List.pairwise_cons.mp hpw).1 e.2 h3
                  rw [hu] at hrk
                  omega
          · exact htopo e he l1 l2' horder
      · -- push the unvisited child c
        rcases dfsChild_eq_some hc with ⟨hcnv, e', he', hec⟩
        rcases outEdges_subset he' with ⟨hee, he1⟩
        have hedgec : (n, c) ∈ g.edges := by
          have he2 : e' = (n, c) := by
            rcases e' with ⟨a, b⟩
            simp only at he1 hec
            rw [he1, hec]
          exact he2 ▸ hee
        have hnc : rank n < rank c := by
          have := hrank (n, c) hedgec
          simpa using this
        apply ih _ _ _ _ _ h
        · refine List.pairwise_cons.mpr ⟨?_, hpw⟩
          intro y hy
          rcases List.mem_cons.mp hy with h1 | h1
          · exact h1 ▸ hnc
          · have := (List.pairwise_cons.mp hpw).1 y h1
            omega
        · intro x hx
          rcases Finset.mem_insert.mp hx with h1 | h1
          · exact Or.inr (Or.inr (by simp [h1]))
          · rcases hP1 x h1 with h2 | h2 | h2
            · exact Or.inl h2
            · exact Or.inr (Or.inl h2)
            · exact Or.inr (Or.inr (List.mem_cons_of_mem _ h2))
        · exact htopo

/-!  dfs-level corollaries, specialised to stack [start] and empty order. -/

theorem dfs_spec (g : MGraph) (s : String) (v : Finset String) :
    dfsLoop g (dfsFuel g) [s] v [] = some ((dfs g s v).1, (dfs g s v).2) := by
  have h := dfsRun_eq g s v
  simpa [dfsRun] using h

theorem dfs_visited_mono (g : MGraph) (s : String) (v : Finset String) :
    v ⊆ (dfs g s v).2 :=
  dfsLoop_visited_mono g _ _ _ _ _ _ (dfs_spec g s v)

theorem dfs_start_mem (g : MGraph) (s : String) (v : Finset String) :
    s ∈ (dfs g s v).1 :=
  dfsLoop_stack_complete g _ _ _ _ _ _ (dfs_spec g s v) s (by simp)

theorem dfs_order_source (g : MGraph) (s : String) (v : Finset String) :
    ∀ x ∈ (dfs g s v).1, x = s ∨ x ∉ v := by
  intro x hx
  rcases dfsLoop_order_source g _ _ _ _ _ _ (dfs_spec g s v) x hx with h1 | h1 | h1
  · simp at h1
  · simp at h1
    exact Or.inl h1
  · exact Or.inr h1

theorem dfs_visited_eq (g : MGraph) (s : String) (v : Finset String) :
    ∀ x, x ∈ (dfs g s v).2 ↔ x ∈ v ∨ x ∈ (dfs g s v).1 := by
  intro x
  constructor
  · intro hx
    rcases dfsLoop_visited_source g _ _ _ _ _ _ (dfs_spec g s v) x hx with h1 | h1 | h1
    · exact Or.inl h1
    · simp at h1
      exact Or.inr (h1 ▸ dfs_start_mem g s v)
    · exact Or.inr h1
  · intro hx
    rcases hx with h1 | h1
    · exact dfs_visited_mono g s v h1
    · exact dfsLoop_order_visited g _ _ _ _ _ _ (dfs_spec g s v) (by simp) x h1

theorem dfs_closure (g : MGraph) (s : String) (v : Finset String) :
    ∀ e ∈ g.edges, e.1 ∈ (dfs g s v).1 → e.2 ∈ (dfs g s v).2 :=
  dfsLoop_closure g _ _ _ _ _ _ (dfs_spec g s v) (by simp)

theorem dfs_reach_sound (g : MGraph) (s : String) (v : Finset String) :
    ∀ x ∈ (dfs g s v).2, x ∈ v ∨ Reaches g s x := by
  intro x hx
  rcases dfsLoop_reach_sound g _ _ _ _ _ _ (dfs_spec g s v) x hx with h1 | ⟨s', hs', hr⟩
  · exact Or.inl h1
  · simp at hs'
    exact Or.inr (hs' ▸ hr)

theorem dfs_nodup (g : MGraph) (s : String) (v : Finset String) :
    (dfs g s v).1.Nodup :=
  dfsLoop_nodup g _ _ _ _ _ _ (dfs_spec g s v) (by simp) (by simp) (by simp)
    (by simp) (by simp)

theorem dfs_topo (g : MGraph) (rank : String → Nat)
    (hrank : ∀ e ∈ g.edges, rank e.1 < rank e.2) (s : String) (v : Finset String) :
    topoInv g v (dfs g s v).1 := by
  apply dfsLoop_topo g rank hrank v _ _ _ _ _ _ (dfs_spec g s v)
  · simp
  · intro x hx
    exact Or.inl hx
  · intro e he l1 l2 hsplit
    exact absurd hsplit (by simp)

/-!  Acyclicity gives a topological ranking. -/

theorem acyclic_exists_rank (g : MGraph) (h : Acyclic g) :
    ∃ rank : String → Nat, ∀ e ∈ g.edges, rank e.1 < rank e.2 := by
  refine ⟨fun n => Set.ncard {m | m ∈ g.nodes ∧ Reaches g m n}, ?_⟩
  intro e he
  have hfin : ∀ n : String, ({m | m ∈ g.nodes ∧ Reaches g m n} : Set String).Finite := by
    intro n
    apply Set.Finite.subset g.nodes.finite_toSet
    intro m hm
    exact hm.1
  apply Set.ncard_lt_ncard ?_ (hfin e.2)
  have hsub : {m | m ∈ g.nodes ∧ Reaches g m e.1} ⊆ {m | m ∈ g.nodes ∧ Reaches g m e.2} := by
    intro m hm
    refine ⟨hm.1, Relation.ReflTransGen.tail hm.2 ?_⟩
    show (e.1, e.2) ∈ g.edges
    simpa using he
  rw [Set.ssubset_iff_of_subset hsub]
  refine ⟨e.2, ⟨(g.wf e he).2, Relation.ReflTransGen.refl⟩, ?_⟩
  intro hmem
  apply h e.2
  refine Relation.TransGen.tail' hmem.2 ?_
  show (e.1, e.2) ∈ g.edges
  simpa using he

theorem rank_acyclic (g : MGraph) (rank : String → Nat)
    (hrank : ∀ e ∈ g.edges, rank e.1 < rank e.2) : Acyclic g := by
  intro n hn
  have key : ∀ a b, Relation.TransGen (edgeRel g) a b → rank a < rank b := by
    intro a b hab
    induction hab with
    | single h1 => exact hrank _ h1
    | tail _ h1 ih => exact lt_trans ih (hrank _ h1)
  have := key n n hn
  omega

/-!  Composition of postorders across the pseudo_topological_sort loop. -/

theorem topoInv_append (g : MGraph) (W : Finset String) (o1 o2 : List String)
    (h1 : topoInv g ∅ o1) (h2 : topoInv g W o2) (hW : ∀ x ∈ W, x ∈ o1) :
    topoInv g ∅ (o1 ++ o2) := by
  intro e he l1 l2 hsplit
  rcases List.append_eq_append_iff.mp hsplit with ⟨a', ha1, ha2⟩ | ⟨c', hc1, hc2⟩
  · -- the occurrence of e.1 lies inside o2
    rcases h2 e he a' l2 ha2 with hv | hm
    · exact Or.inr (ha1 ▸ List.mem_append_left _ (hW _ hv))
    · exact Or.inr (ha1 ▸ List.mem_append_right _ hm)
  · -- the split point lies inside o1 (or exactly at its end)
    match c' with
    | [] =>
      simp at hc1 hc2
      rcases h2 e he [] l2 (by rw [List.nil_append]; exact hc2.symm) with hv | hm
      · exact Or.inr (hc1 ▸ hW _ hv)
      · simp at hm
    | u' :: c'' =>
      simp only [List.cons_append, List.cons.injEq] at hc2
      rcases h2 with _
      rcases h1 e he l1 c'' (by rw [hc1, hc2.1]) with hv | hm
      · simp at hv
      · exact Or.inr hm

/-!  In a ranked (hence acyclic) graph every node is forward-reachable from a
zero-in-degree node. -/

theorem reach_from_sources (g : MGraph) (rank : String → Nat)
    (hrank : ∀ e ∈ g.edges, rank e.1 < rank e.2) :
    ∀ x ∈ g.nodes, ∃ s ∈ nodesWithoutInputs g, Reaches g s x := by
  have key : ∀ k x, x ∈ g.nodes → rank x < k →
      ∃ s ∈ nodesWithoutInputs g, Reaches g s x := by
    intro k
    induction k with
    | zero => intro x _ hx; omega
    | succ k ih =>
      intro x hxn hx
      rcases hin : (g.inEdges x).isEmpty with hfalse | htrue
      · -- x has an incoming edge: climb it
        have hne : g.inEdges x ≠ [] := by
          intro hnil
          rw [hnil] at hin
          simp at hin
        rcases List.exists_mem_of_ne_nil _ hne with ⟨e, he⟩
        rcases inEdges_subset he with ⟨hee, he2⟩
        have h1 : rank e.1 < rank x := he2 ▸ hrank e hee
        have h2 : e.1 ∈ g.nodes := (g.wf e hee).1
        rcases ih e.1 h2 (by omega) with ⟨s, hs, hr⟩
        refine ⟨s, hs, Relation.ReflTransGen.tail hr ?_⟩
        show (e.1, x) ∈ g.edges
        have : e = (e.1, x) := by
          rcases e with ⟨a, b⟩
          simp only at he2 ⊢
          rw [he2]
        exact this ▸ hee
      · -- x has no incoming edge: it is itself a source
        refine ⟨x, ?_, Relation.ReflTransGen.refl⟩
        simp only [nodesWithoutInputs, List.mem_filter]
        exact ⟨hxn, hin⟩
  intro x hx
  exact key (rank x + 1) x hx (by omega)

theorem ptsFold_inv (g : MGraph) (rank : String → Nat)
    (hrank : ∀ e ∈ g.edges, rank e.1 < rank e.2) :
    ∀ starts accOrder accVisited,
    (∀ x, x ∈ accVisited ↔ x ∈ accOrder) →
    topoInv g ∅ accOrder →
    (∀ e ∈ g.edges, e.1 ∈ accOrder → e.2 ∈ accVisited) →
    accOrder.Nodup →
    (∀ x, x ∈ (ptsFold g starts (accOrder, accVisited)).2 ↔
        x ∈ (ptsFold g starts (accOrder, accVisited)).1) ∧
    topoInv g ∅ (ptsFold g starts (accOrder, accVisited)).1 ∧
    (∀ e ∈ g.edges, e.1 ∈ (ptsFold g starts (accOrder, accVisited)).1 →
        e.2 ∈ (ptsFold g starts (accOrder, accVisited)).2) ∧
    (ptsFold g starts (accOrder, accVisited)).1.Nodup ∧
    (∀ s ∈ starts, s ∈ (ptsFold g starts (accOrder, accVisited)).2) ∧
    accVisited ⊆ (ptsFold g starts (accOrder, accVisited)).2 := by
  intro starts
  induction starts with
  | nil =>
    intro ao av hvo htopo hcl hnd
    simp only [ptsFold]
    exact ⟨hvo, htopo, hcl, hnd, by simp, Finset.Subset.refl _⟩
  | cons n rest ih =>
    intro ao av hvo htopo hcl hnd
    by_cases hn : n ∈ av
    · simp only [ptsFold, if_pos hn]
      rcases ih ao av hvo htopo hcl hnd with ⟨c1, c2, c3, c4, c5, c6⟩
      refine ⟨c1, c2, c3, c4, ?_, c6⟩
      intro s hs
      rcases List.mem_cons.mp hs with h1 | h1
      · exact c6 (h1 ▸ hn)
      · exact c5 s h1
    · simp only [ptsFold, if_neg hn]
      have hvo' : ∀ x, x ∈ (dfs g n av).2 ↔ x ∈ ao ++ (dfs g n av).1 := by
        intro x
        rw [dfs_visited_eq g n av x, List.mem_append, hvo]
      have htopo' : topoInv g ∅ (ao ++ (dfs g n av).1) :=
        topoInv_append g av ao (dfs g n av).1 htopo (dfs_topo g rank hrank n av)
          (fun x hx => (hvo x).mp hx)
      have hcl' : ∀ e ∈ g.edges, e.1 ∈ ao ++ (dfs g n av).1 → e.2 ∈ (dfs g n av).2 := by
        intro e he h1
        rcases List.mem_append.mp h1 with h2 | h2
        · exact dfs_visited_mono g n av (hcl e he h2)
        · exact dfs_closure g n av e he h2
      have hnd' : (ao ++ (dfs g n av).1).Nodup := by
        rw [List.nodup_append]
        refine ⟨hnd, dfs_nodup g n av, ?_⟩
        intro x hx hx2
        rcases dfs_order_source g n av x hx2 with h1 | h1
        · exact hn (h1 ▸ (hvo x).mpr hx)
        · exact h1 ((hvo x).mpr hx)
      rcases ih (ao ++ (dfs g n av).1) (dfs g n av).2 hvo' htopo' hcl' hnd' with
        ⟨c1, c2, c3, c4, c5, c6⟩
      refine ⟨c1, c2, c3, c4, ?_, ?_⟩
      · intro s hs
        rcases List.mem_cons.mp hs with h1 | h1
        · exact c6 (h1 ▸ (dfs_visited_eq g n av n).mpr (Or.inr (dfs_start_mem g n av)))
        · exact c5 s h1
      · exact fun x hx => c6 (dfs_visited_mono g n av hx)

theorem pts_inv_all (g : MGraph) (rank : String → Nat)
    (hrank : ∀ e ∈ g.edges, rank e.1 < rank e.2) :
    (∀ x, x ∈ (ptsFold g (nodesWithoutInputs g) ([], ∅)).2 ↔
        x ∈ (ptsFold g (nodesWithoutInputs g) ([], ∅)).1) ∧
    topoInv g ∅ (ptsFold g (nodesWithoutInputs g) ([], ∅)).1 ∧
    (ptsFold g (nodesWithoutInputs g) ([], ∅)).1.Nodup ∧
    (∀ x ∈ g.nodes, x ∈ (ptsFold g (nodesWithoutInputs g) ([], ∅)).1) := by
  rcases ptsFold_inv g rank hrank (nodesWithoutInputs g) [] ∅
    (by simp) (fun e he l1 l2 h => absurd h (by simp)) (by simp) (by simp) with
    ⟨c1, c2, c3, c4, c5, c6⟩
  refine ⟨c1, c2, c4, ?_⟩
  intro x hx
  rcases reach_from_sources g rank hrank x hx with ⟨s, hs, hr⟩
  have hclosed : ∀ a b, Reaches g a b →
      a ∈ (ptsFold g (nodesWithoutInputs g) ([], ∅)).2 →
      b ∈ (ptsFold g (nodesWithoutInputs g) ([], ∅)).2 := by
    intro a b hab
    induction hab with
    | refl => exact id
    | tail h1 h2 ih =>
      intro ha
      exact c3 _ h2 ((c1 _).mp (ih ha))
  exact (c1 x).mp (hclosed s x hr (c5 s hs))

/-- C5: on every acyclic graph, pseudo_topological_sort with reverse = false
produces a duplicate-free order in which, for every edge (u, v), u occurs and
v occurs strictly after it. -/
theorem pseudo_topological_sort_topo_order (g : MGraph) (hacy : Acyclic g) :
    (pseudo_topological_sort g false).Nodup ∧
    ∀ e ∈ g.edges, ∃ l1 l2,
      pseudo_topological_sort g false = l1 ++ e.1 :: l2 ∧ e.2 ∈ l2 := by
  rcases acyclic_exists_rank g hacy with ⟨rank, hrank⟩
  rcases pts_inv_all g rank hrank with ⟨c1, c2, c4, c7⟩
  have hpts : pseudo_topological_sort g false =
      (ptsFold g (nodesWithoutInputs g) ([], ∅)).1.reverse := by
    simp [pseudo_topological_sort]
  constructor
  · rw [hpts]
    exact List.nodup_reverse.mpr c4
  · intro e he
    have h1 : e.1 ∈ (ptsFold g (nodesWithoutInputs g) ([], ∅)).1 :=
      c7 e.1 (g.wf e he).1
    rcases List.append_of_mem h1 with ⟨l1, l2, hsplit⟩
    rcases c2 e he l1 l2 hsplit with hv | hm
    · simp at hv
    · refine ⟨l2.reverse, l1.reverse, ?_, List.mem_reverse.mpr hm⟩
      rw [hpts, hsplit]
      simp

/-- Witness for C5 at the concrete chain A -> B -> C -> D. -/
theorem pseudo_topological_sort_topo_order_witness :
    Acyclic chainABCD ∧
    ((pseudo_topological_sort chainABCD false).Nodup ∧
     ∀ e ∈ chainABCD.edges, ∃ l1 l2,
       pseudo_topological_sort chainABCD false = l1 ++ e.1 :: l2 ∧ e.2 ∈ l2) := by
  have hacy : Acyclic chainABCD :=
    rank_acyclic chainABCD
      (fun n => if n = "A" then 0 else if n = "B" then 1 else if n = "C" then 2 else 3)
      (by decide)
  exact ⟨hacy, pseudo_topological_sort_topo_order chainABCD hacy⟩

/-- C8 counterexample: running dfs twice from the same start node, each call
with its own freshly empty visited set, returns the same nonempty list twice,
so the two result sets are not disjoint. -/
theorem dfs_fresh_not_disjoint :
    ¬ List.Disjoint (dfs singleA "A" ∅).1 (dfs singleA "A" ∅).1 := by
  have hA : "A" ∈ (dfs singleA "A" ∅).1 := by decide
  exact fun h => h hA hA

/-- C8 amended: two dfs runs sharing one visited set (the second call
receiving the set the first call extended), with the second start node not
visited by the first call, produce disjoint result lists. -/
theorem dfs_shared_visited_disjoint (g : MGraph) (a b : String)
    (hb : b ∉ (dfs g a ∅).2) :
    List.Disjoint (dfs g a ∅).1 (dfs g b (dfs g a ∅).2).1 := by
  intro x hx1 hx2
  rcases dfs_order_source g b (dfs g a ∅).2 x hx2 with h1 | h1
  · subst h1
    exact hb ((dfs_visited_eq g a ∅ x).mpr (Or.inr hx1))
  · exact h1 ((dfs_visited_eq g a ∅ x).mpr (Or.inr hx1))

/-- Witness for the amended C8 on the graph with edge A -> B and isolated C. -/
theorem dfs_shared_visited_disjoint_witness :
    "C" ∉ (dfs gUnreach "A" ∅).2 ∧
    List.Disjoint (dfs gUnreach "A" ∅).1 (dfs gUnreach "C" (dfs gUnreach "A" ∅).2).1 :=
  ⟨by decide, dfs_shared_visited_disjoint gUnreach "A" "C" (by decide)⟩

/-!  The region growth loop of sub_graph_between_nodes. -/

theorem sgProcessIn_queue_source (startNodes : List String) (cur : String) :
    ∀ l s, ∀ x ∈ (sgProcessIn startNodes cur l s).queue,
      x ∈ s.queue ∨ ∃ e ∈ l, e.1 = x := by
  intro l
  induction l with
  | nil => intro s x hx; exact Or.inl hx
  | cons e es ih =>
    intro s x hx
    by_cases hc : cur ∉ startNodes ∧ e.1 ∉ s.visited
    · simp only [sgProcessIn, if_pos hc] at hx
      rcases ih _ x hx with h1 | ⟨e', he', hx'⟩
      · simp only [List.mem_append] at h1
        rcases h1 with h2 | h2
        · exact Or.inl h2
        · simp at h2
          exact Or.inr ⟨e, List.mem_cons_self e es, h2.symm⟩
      · exact Or.inr ⟨e', List.mem_cons_of_mem _ he', hx'⟩
    · simp only [sgProcessIn, if_neg hc] at hx
      rcases ih _ x hx with h1 | ⟨e', he', hx'⟩
      · exact Or.inl h1
      · exact Or.inr ⟨e', List.mem_cons_of_mem _ he', hx'⟩

/-- C1: on the chain A -> B -> C -> D, extraction between A and D returns
exactly the nodes A, B, C, D; and in general a dequeued node that lies in the
end set contributes only sources of its incoming edges to the work queue,
never destinations of its outgoing edges. -/
theorem subgraph_chain_exact :
    sub_graph_between_nodes chainABCD ["A"] ["D"] = .ok ["A", "B", "C", "D"] ∧
    ∀ (g : MGraph) (startNodes endNodes : List String) (cur : String) (s : SGState),
      cur ∈ endNodes →
      ∀ x ∈ (sgStep g startNodes endNodes cur s).queue,
        x ∈ s.queue ∨ ∃ e ∈ g.inEdges cur, e.1 = x := by
  constructor
  · rfl
  · intro g startNodes endNodes cur s hcur x hx
    simp only [sgStep, if_pos hcur] at hx
    exact sgProcessIn_queue_source startNodes cur (g.inEdges cur)
      { s with subGraphNodes := s.subGraphNodes ++ [cur] } x hx

/-- Witness for C1 on the chain: D is an end node and processing it enqueues
nothing beyond the in-edge source C. -/
theorem subgraph_chain_exact_witness :
    "D" ∈ ["D"] ∧
    ∀ x ∈ (sgStep chainABCD ["A"] ["D"] "D"
        { subGraphNodes := [], visited := {"A"}, queue := [], prev := [] }).queue,
      x ∈ ([] : List String) ∨ ∃ e ∈ chainABCD.inEdges "D", e.1 = x := by
  refine ⟨by decide, ?_⟩
  exact (subgraph_chain_exact.2 chainABCD ["A"] ["D"] "D"
    { subGraphNodes := [], visited := {"A"}, queue := [], prev := [] } (by decide))

/-!  backward_bfs_for_operation: divergence on a cycle, termination on ranked
graphs. -/

theorem bbfsLoop_selfLoop_none :
    ∀ fuel, bbfsLoop gSelfLoop ["Conv"] fuel ["A"] [] = none := by
  intro fuel
  induction fuel with
  | zero => rfl
  | succ fuel ih => exact ih

/-- C2 counterexample: on the cyclic one-node graph with a self-loop whose op
tag is not searched for, backward_bfs_for_operation never empties its queue:
there is no visited-set tracking, so the search started at A runs forever. -/
theorem backward_bfs_cycle_diverges :
    ¬ bbfsTerminates gSelfLoop ["Conv"] ["A"] [] := by
  rintro ⟨fuel, res, h⟩
  rw [bbfsLoop_selfLoop_none fuel] at h
  exact Option.noConfusion h

theorem bbW_mono (g : MGraph) : ∀ k n, bbW g k n ≤ bbW g (k + 1) n := by
  intro k
  induction k with
  | zero =>
    intro n
    simp [bbW]
  | succ k ih =>
    intro n
    simp only [bbW, Nat.add_le_add_iff_left]
    apply List.sum_le_sum
    intro p _
    exact ih p

theorem bbW_le_of_le (g : MGraph) {k k' : Nat} (h : k ≤ k') :
    ∀ n, bbW g k n ≤ bbW g k' n := by
  induction h with
  | refl => intro n; exact Nat.le_refl _
  | step _ ih =>
    intro n
    exact Nat.le_trans (ih n) (bbW_mono g _ n)

theorem bbfsScan_sum_le (g : MGraph) (opNames : List String) (f : String → Nat) :
    ∀ l ret, (((bbfsScan g opNames l ret).1).map f).sum ≤ (l.map f).sum := by
  intro l
  induction l with
  | nil => intro ret; simp [bbfsScan]
  | cons p ps ih =>
    intro ret
    by_cases hk : g.kind p = "op"
    · rcases hop : g.opAttr p with _ | op
      · simp only [bbfsScan, if_pos hk, hop, List.map_cons, List.sum_cons]
        exact Nat.add_le_add_left (ih ret) _
      · by_cases hmem : op ∈ opNames
        · simp only [bbfsScan, if_pos hk, hop, if_pos hmem, List.map_cons, List.sum_cons]
          exact Nat.le_trans (ih _) (Nat.le_add_left _ _)
        · simp only [bbfsScan, if_pos hk, hop, if_neg hmem, List.map_cons, List.sum_cons]
          exact Nat.add_le_add_left (ih ret) _
    · by_cases hd : g.kind p = "data" ∧ g.hasValue p = false
      · simp only [bbfsScan, if_neg hk, if_pos hd, List.map_cons, List.sum_cons]
        exact Nat.add_le_add_left (ih ret) _
      · simp only [bbfsScan, if_neg hk, if_neg hd, List.map_cons, List.sum_cons]
        exact Nat.le_trans (ih ret) (Nat.le_add_left _ _)

theorem bbfsScan_mem_preds (g : MGraph) (opNames : List String) :
    ∀ l ret, ∀ x ∈ (bbfsScan g opNames l ret).1, x ∈ l := by
  intro l
  induction l with
  | nil => intro ret x hx; simp [bbfsScan] at hx
  | cons p ps ih =>
    intro ret x hx
    by_cases hk : g.kind p = "op"
    · rcases hop : g.opAttr p with _ | op
      · simp only [bbfsScan, if_pos hk, hop] at hx
        rcases List.mem_cons.mp hx with h1 | h1
        · exact h1 ▸ List.mem_cons_self p ps
        · exact List.mem_cons_of_mem _ (ih ret x h1)
      · by_cases hmem : op ∈ opNames
        · simp only [bbfsScan, if_pos hk, hop, if_pos hmem] at hx
          exact List.mem_cons_of_mem _ (ih _ x hx)
        · simp only [bbfsScan, if_pos hk, hop, if_neg hmem] at hx
          rcases List.mem_cons.mp hx with h1 | h1
          · exact h1 ▸ List.mem_cons_self p ps
          · exact List.mem_cons_of_mem _ (ih ret x h1)
    · by_cases hd : g.kind p = "data" ∧ g.hasValue p = false
      · simp only [bbfsScan, if_neg hk, if_pos hd] at hx
        rcases List.mem_cons.mp hx with h1 | h1
        · exact h1 ▸ List.mem_cons_self p ps
        · exact List.mem_cons_of_mem _ (ih ret x h1)
      · simp only [bbfsScan, if_neg hk, if_neg hd] at hx
        exact List.mem_cons_of_mem _ (ih ret x hx)

theorem bbW_key (g : MGraph) (rank : String → Nat)
    (hrank : ∀ e ∈ g.edges, rank e.1 < rank e.2) (n : String) :
    ((g.inNodesOf n).map (fun p => bbW g (rank p) p)).sum < bbW g (rank n) n := by
  have hpred : ∀ p ∈ g.inNodesOf n, rank p < rank n := by
    intro p hp
    rcases List.mem_map.mp hp with ⟨e, he, rfl⟩
    rcases inEdges_subset he with ⟨hee, he2⟩
    have h1 := hrank e hee
    rw [he2] at h1
    exact h1
  rcases hr : rank n with _ | k
  · -- rank 0 forces the predecessor list to be empty
    have hnil : g.inNodesOf n = [] := by
      rw [List.eq_nil_iff_forall_not_mem]
      intro p hp
      have := hpred p hp
      omega
    rw [hnil]
    simp [bbW]
  · have hle : ((g.inNodesOf n).map (fun p => bbW g (rank p) p)).sum ≤
        ((g.inNodesOf n).map (bbW g k)).sum := by
      apply List.sum_le_sum
      intro p hp
      have h1 : rank p < rank n := hpred p hp
      exact bbW_le_of_le g (by omega) p
    simp only [bbW]
    omega

theorem bbfsLoop_total (g : MGraph) (opNames : List String) (rank : String → Nat)
    (hrank : ∀ e ∈ g.edges, rank e.1 < rank e.2) :
    ∀ fuel q ret, (q.map (fun n => bbW g (rank n) n)).sum < fuel →
    ∃ res, bbfsLoop g opNames fuel q ret = some res := by
  intro fuel
  induction fuel with
  | zero => intro q ret h; omega
  | succ fuel ih =>
    intro q ret h
    match q with
    | [] => exact ⟨ret, rfl⟩
    | n :: rest =>
      simp only [bbfsLoop]
      apply ih
      have h1 : (((bbfsScan g opNames (g.inNodesOf n) ret).1).map
          (fun m => bbW g (rank m) m)).sum ≤
          ((g.inNodesOf n).map (fun m => bbW g (rank m) m)).sum :=
        bbfsScan_sum_le g opNames _ _ _
      have h2 := bbW_key g rank hrank n
      simp only [List.map_cons, List.sum_cons] at h
      rw [List.map_append, List.sum_append]
      omega

/-- C2 amended: backward_bfs_for_operation terminates on every acyclic graph
(the queue drains within a computable potential bound); it has no visited-set
tracking, so on cyclic graphs its termination is not guaranteed. -/
theorem backward_bfs_terminates_on_acyclic (g : MGraph) (opNames : List String)
    (startNode : String) (hacy : Acyclic g) :
    bbfsTerminates g opNames [startNode] [] := by
  rcases acyclic_exists_rank g hacy with ⟨rank, hrank⟩
  have h := bbfsLoop_total g opNames rank hrank
    (bbW g (rank startNode) startNode + 1) [startNode] [] (by simp)
  rcases h with ⟨res, hres⟩
  exact ⟨_, res, hres⟩

/-- Witness for the amended C2 on the acyclic chain A -> B -> C. -/
theorem backward_bfs_terminates_on_acyclic_witness :
    Acyclic chainABC ∧ bbfsTerminates chainABC ["Conv"] ["C"] [] := by
  have hacy : Acyclic chainABC :=
    rank_acyclic chainABC
      (fun n => if n = "A" then 0 else if n = "B" then 1 else 2) (by decide)
  exact ⟨hacy, backward_bfs_terminates_on_acyclic chainABC ["Conv"] "C" hacy⟩

theorem sgProcessOut_measure (univ : Finset String) (cur : String) :
    ∀ l (s : SGState), (∀ e ∈ l, e.2 ∈ univ) →
    (univ \ (sgProcessOut cur l s).visited).card + (sgProcessOut cur l s).queue.length ≤
    (univ \ s.visited).card + s.queue.length := by
  intro l
  induction l with
  | nil => intro s _; exact Nat.le_refl _
  | cons e es ih =>
    intro s hu
    by_cases hv : e.2 ∈ s.visited
    · simp only [sgProcessOut, if_pos hv]
      exact ih s (fun e' he' => hu e' (List.mem_cons_of_mem _ he'))
    · simp only [sgProcessOut, if_neg hv]
      have hcard := card_sdiff_insert_of_mem (hu e (List.mem_cons_self e es)) hv
      have h2 := ih
          { s with
            queue := s.queue ++ [e.2],
            visited := insert e.2 s.visited,
            prev := s.prev ++ [(e.2, cur)] }
          (fun e' he' => hu e' (List.mem_cons_of_mem _ he'))
      simp only [List.length_append, List.length_cons, List.length_nil] at h2
      omega

theorem sgProcessIn_measure (univ : Finset String) (startNodes : List String)
    (cur : String) :
    ∀ l (s : SGState), (∀ e ∈ l, e.1 ∈ univ) →
    (univ \ (sgProcessIn startNodes cur l s).visited).card +
      (sgProcessIn startNodes cur l s).queue.length ≤
    (univ \ s.visited).card + s.queue.length := by
  intro l
  induction l with
  | nil => intro s _; exact Nat.le_refl _
  | cons e es ih =>
    intro s hu
    by_cases hc : cur ∉ startNodes ∧ e.1 ∉ s.visited
    · simp only [sgProcessIn, if_pos hc]
      have hcard := card_sdiff_insert_of_mem (hu e (List.mem_cons_self e es)) hc.2
      have h2 := ih
          { s with
            queue := s.queue ++ [e.1],
            visited := insert e.1 s.visited,
            prev := s.prev ++ [(e.1, cur)] }
          (fun e' he' => hu e' (List.mem_cons_of_mem _ he'))
      simp only [List.length_append, List.length_cons, List.length_nil] at h2
      omega
    · simp only [sgProcessIn, if_neg hc]
      exact ih s (fun e' he' => hu e' (List.mem_cons_of_mem _ he'))

theorem sgStep_measure (g : MGraph) (univ : Finset String)
    (startNodes endNodes : List String) (cur : String) (s : SGState)
    (hu : ∀ e ∈ g.edges, e.1 ∈ univ ∧ e.2 ∈ univ) :
    (univ \ (sgStep g startNodes endNodes cur s).visited).card +
      (sgStep g startNodes endNodes cur s).queue.length ≤
    (univ \ s.visited).card + s.queue.length := by
  have hout : ∀ e ∈ g.outEdges cur, e.2 ∈ univ :=
    fun e he => (hu e (outEdges_subset he).1).2
  have hin : ∀ e ∈ g.inEdges cur, e.1 ∈ univ :=
    fun e he => (hu e (inEdges_subset he).1).1
  by_cases hend : cur ∈ endNodes
  · simp only [sgStep, if_pos hend]
    exact sgProcessIn_measure univ startNodes cur (g.inEdges cur)
      { s with subGraphNodes := s.subGraphNodes ++ [cur] } hin
  · simp only [sgStep, if_neg hend]
    calc (univ \ (sgProcessIn startNodes cur (g.inEdges cur)
            (sgProcessOut cur (g.outEdges cur)
              { s with subGraphNodes := s.subGraphNodes ++ [cur] })).visited).card +
          (sgProcessIn startNodes cur (g.inEdges cur)
            (sgProcessOut cur (g.outEdges cur)
              { s with subGraphNodes := s.subGraphNodes ++ [cur] })).queue.length
        ≤ (univ \ (sgProcessOut cur (g.outEdges cur)
            { s with subGraphNodes := s.subGraphNodes ++ [cur] }).visited).card +
          (sgProcessOut cur (g.outEdges cur)
            { s with subGraphNodes := s.subGraphNodes ++ [cur] }).queue.length :=
          sgProcessIn_measure univ startNodes cur (g.inEdges cur) _ hin
      _ ≤ (univ \ s.visited).card + s.queue.length :=
          sgProcessOut_measure univ cur (g.outEdges cur)
            { s with subGraphNodes := s.subGraphNodes ++ [cur] } hout

theorem sgLoop_isSome (g : MGraph) (startNodes endNodes : List String)
    (univ : Finset String) (hu : ∀ e ∈ g.edges, e.1 ∈ univ ∧ e.2 ∈ univ) :
    ∀ fuel s, (univ \ s.visited).card + s.queue.length < fuel →
    (sgLoop g startNodes endNodes fuel s).isSome := by
  intro fuel
  induction fuel with
  | zero => intro s h; omega
  | succ fuel ih =>
    intro s h
    rcases hq : s.queue with _ | ⟨cur, rest⟩
    · simp [sgLoop, hq]
    · simp only [sgLoop, hq]
      apply ih
      have h1 := sgStep_measure g univ startNodes endNodes cur
        { s with queue := rest } hu
      simp only at h1
      rw [hq] at h
      simp only [List.length_cons] at h
      omega

theorem sgRun_isSome (g : MGraph) (startNodes endNodes : List String) :
    (sgRun g startNodes endNodes).isSome := by
  apply sgLoop_isSome g startNodes endNodes (g.nodes.toFinset ∪ startNodes.toFinset)
  · intro e he
    exact ⟨Finset.mem_union_left _ (List.mem_toFinset.mpr (g.wf e he).1),
           Finset.mem_union_left _ (List.mem_toFinset.mpr (g.wf e he).2)⟩
  · have h1 : ((g.nodes.toFinset ∪ startNodes.toFinset) \ startNodes.toFinset).card ≤
        g.nodes.length := by
      calc ((g.nodes.toFinset ∪ startNodes.toFinset) \ startNodes.toFinset).card
          ≤ g.nodes.toFinset.card := by
            apply Finset.card_le_card
            intro x hx
            rcases Finset.mem_sdiff.mp hx with ⟨hx1, hx2⟩
            rcases Finset.mem_union.mp hx1 with h2 | h2
            · exact h2
            · exact absurd h2 hx2
        _ ≤ g.nodes.length := g.nodes.toFinset_card_le
    simp only [sgInit, sgFuel]
    omega

theorem option_eq_some_getD {α : Type} (o : Option α) (d : α) (h : o.isSome) :
    o = some (o.getD d) := by
  cases o
  · simp at h
  · rfl

theorem prevKeys_append (l1 l2 : List (String × String)) :
    prevKeys (l1 ++ l2) = prevKeys l1 ++ prevKeys l2 := by
  simp [prevKeys]

theorem sgProcessOut_inv (startNodes : List String) (cur : String) :
    ∀ l (s : SGState), sgInv startNodes s → cur ∈ s.visited →
    sgInv startNodes (sgProcessOut cur l s) ∧
    s.visited ⊆ (sgProcessOut cur l s).visited := by
  intro l
  induction l with
  | nil => intro s h _; exact ⟨h, fun x hx => hx⟩
  | cons e es ih =>
    intro s h hcur
    by_cases hv : e.2 ∈ s.visited
    · simp only [sgProcessOut, if_pos hv]
      exact ih s h hcur
    · simp only [sgProcessOut, if_neg hv]
      rcases h with ⟨h1, h2, h3, h4, h5⟩
      have hknv : e.2 ∉ prevKeys s.prev := by
        intro hk
        exact hv ((h1 e.2).mpr (Or.inr hk))
      have hInv2 : sgInv startNodes
          { s with
            queue := s.queue ++ [e.2],
            visited := insert e.2 s.visited,
            prev := s.prev ++ [(e.2, cur)] } := by
        refine ⟨?_, ?_, ?_, ?_, ?_⟩
        · intro x
          simp only [prevKeys_append]
          constructor
          · intro hx
            rcases Finset.mem_insert.mp hx with hx1 | hx1
            · exact Or.inr (List.mem_append_right _ (by simp [prevKeys, hx1]))
            · rcases (h1 x).mp hx1 with hx2 | hx2
              · exact Or.inl hx2
              · exact Or.inr (List.mem_append_left _ hx2)
          · intro hx
            rcases hx with hx1 | hx1
            · exact Finset.mem_insert_of_mem ((h1 x).mpr (Or.inl hx1))
            · rcases List.mem_append.mp hx1 with hx2 | hx2
              · exact Finset.mem_insert_of_mem ((h1 x).mpr (Or.inr hx2))
              · simp only [prevKeys, List.map_cons, List.map_nil] at hx2
                simp at hx2
                exact hx2 ▸ Finset.mem_insert_self _ _
        · rw [prevKeys_append, List.nodup_append]
          refine ⟨h2, by simp [prevKeys], ?_⟩
          intro a ha ha2
          simp [prevKeys] at ha2
          exact hknv (ha2 ▸ ha)
        · intro x hx
          rcases List.mem_append.mp hx with hx1 | hx1
          · exact Finset.mem_insert_of_mem (h3 x hx1)
          · simp at hx1
            exact hx1 ▸ Finset.mem_insert_self _ _
        · intro l1 k v l2 hsp
          rcases append_singleton_split hsp with ⟨hl1, hu, -⟩ | ⟨l2', -, hprev⟩
          · have hvcur : v = cur := by
              have := congrArg Prod.snd hu
              simpa using this
            rcases (h1 cur).mp hcur with hc1 | hc1
            · exact Or.inl (hvcur ▸ hc1)
            · exact Or.inr (hvcur ▸ hl1 ▸ hc1)
          · exact h4 l1 k v l2' hprev
        · intro k hk
          rw [prevKeys_append] at hk
          rcases List.mem_append.mp hk with hk1 | hk1
          · exact h5 k hk1
          · simp [prevKeys] at hk1
            intro hks
            exact hv ((h1 e.2).mpr (Or.inl (hk1 ▸ hks)))
      have hres := ih _ hInv2 (Finset.mem_insert_of_mem hcur)
      exact ⟨hres.1, fun x hx => hres.2 (Finset.mem_insert_of_mem hx)⟩

theorem sgProcessIn_inv (startNodes : List String) (cur : String) :
    ∀ l (s : SGState), sgInv startNodes s → cur ∈ s.visited →
    sgInv startNodes (sgProcessIn startNodes cur l s) ∧
    s.visited ⊆ (sgProcessIn startNodes cur l s).visited := by
  intro l
  induction l with
  | nil => intro s h _; exact ⟨h, fun x hx => hx⟩
  | cons e es ih =>
    intro s h hcur
    by_cases hc : cur ∉ startNodes ∧ e.1 ∉ s.visited
    · simp only [sgProcessIn, if_pos hc]
      rcases h with ⟨h1, h2, h3, h4, h5⟩
      have hknv : e.1 ∉ prevKeys s.prev := by
        intro hk
        exact hc.2 ((h1 e.1).mpr (Or.inr hk))
      have hInv2 : sgInv startNodes
          { s with
            queue := s.queue ++ [e.1],
            visited := insert e.1 s.visited,
            prev := s.prev ++ [(e.1, cur)] } := by
        refine ⟨?_, ?_, ?_, ?_, ?_⟩
        · intro x
          simp only [prevKeys_append]
          constructor
          · intro hx
            rcases Finset.mem_insert.mp hx with hx1 | hx1
            · exact Or.inr (List.mem_append_right _ (by simp [prevKeys, hx1]))
            · rcases (h1 x).mp hx1 with hx2 | hx2
              · exact Or.inl hx2
              · exact Or.inr (List.mem_append_left _ hx2)
          · intro hx
            rcases hx with hx1 | hx1
            · exact Finset.mem_insert_of_mem ((h1 x).mpr (Or.inl hx1))
            · rcases List.mem_append.mp hx1 with hx2 | hx2
              · exact Finset.mem_insert_of_mem ((h1 x).mpr (Or.inr hx2))
              · simp [prevKeys] at hx2
                exact hx2 ▸ Finset.mem_insert_self _ _
        · rw [prevKeys_append, List.nodup_append]
          refine ⟨h2, by simp [prevKeys], ?_⟩
          intro a ha ha2
          simp [prevKeys] at ha2
          exact hknv (ha2 ▸ ha)
        · intro x hx
          rcases List.mem_append.mp hx with hx1 | hx1
          · exact Finset.mem_insert_of_mem (h3 x hx1)
          · simp at hx1
            exact hx1 ▸ Finset.mem_insert_self _ _
        · intro l1 k v l2 hsp
          rcases append_singleton_split hsp with ⟨hl1, hu, -⟩ | ⟨l2', -, hprev⟩
          · have hvcur : v = cur := by
              have := congrArg Prod.snd hu
              simpa using this
            rcases (h1 cur).mp hcur with hc1 | hc1
            · exact Or.inl (hvcur ▸ hc1)
            · exact Or.inr (hvcur ▸ hl1 ▸ hc1)
          · exact h4 l1 k v l2' hprev
        · intro k hk
          rw [prevKeys_append] at hk
          rcases List.mem_append.mp hk with hk1 | hk1
          · exact h5 k hk1
          · simp [prevKeys] at hk1
            intro hks
            exact hc.2 ((h1 e.1).mpr (Or.inl (hk1 ▸ hks)))
      have hres := ih _ hInv2 (Finset.mem_insert_of_mem hcur)
      exact ⟨hres.1, fun x hx => hres.2 (Finset.mem_insert_of_mem hx)⟩
    · simp only [sgProcessIn, if_neg hc]
      exact ih s h hcur

theorem sgStep_inv (g : MGraph) (startNodes endNodes : List String) (cur : String)
    (s : SGState) (h : sgInv startNodes s) (hcur : cur ∈ s.visited) :
    sgInv startNodes (sgStep g startNodes endNodes cur s) := by
  have h1 : sgInv startNodes { s with subGraphNodes := s.subGraphNodes ++ [cur] } := h
  by_cases hend : cur ∈ endNodes
  · simp only [sgStep, if_pos hend]
    exact (sgProcessIn_inv startNodes cur (g.inEdges cur) _ h1 hcur).1
  · simp only [sgStep, if_neg hend]
    have h2 := sgProcessOut_inv startNodes cur (g.outEdges cur)
      { s with subGraphNodes := s.subGraphNodes ++ [cur] } h1 hcur
    exact (sgProcessIn_inv startNodes cur (g.inEdges cur) _ h2.1 (h2.2 hcur)).1

theorem sgLoop_inv (g : MGraph) (startNodes endNodes : List String) :
    ∀ fuel s sF, sgLoop g startNodes endNodes fuel s = some sF →
    sgInv startNodes s → sgInv startNodes sF := by
  intro fuel
  induction fuel with
  | zero => intro s sF h; simp [sgLoop] at h
  | succ fuel ih =>
    intro s sF h hinv
    rcases hq : s.queue with _ | ⟨cur, rest⟩
    · simp only [sgLoop, hq, Option.some.injEq] at h
      exact h ▸ hinv
    · simp only [sgLoop, hq] at h
      apply ih _ _ h
      apply sgStep_inv
      · rcases hinv with ⟨h1, h2, h3, h4, h5⟩
        refine ⟨h1, h2, ?_, h4, h5⟩
        intro x hx
        exact h3 x (by rw [hq]; exact List.mem_cons_of_mem _ hx)
      · exact hinv.2.2.1 cur (by rw [hq]; exact List.mem_cons_self cur rest)

theorem sgInit_inv (startNodes : List String) :
    sgInv startNodes (sgInit startNodes) := by
  refine ⟨?_, ?_, ?_, ?_, ?_⟩
  · intro x
    simp [sgInit, prevKeys]
  · simp [sgInit, prevKeys]
  · intro x hx
    simp only [sgInit, List.mem_toFinset]
    exact hx
  · intro l1 k v l2 hsp
    exact absurd hsp (by simp [sgInit])
  · intro k hk
    simp [sgInit, prevKeys] at hk

/-!  Following prev back-pointers terminates. -/

theorem prevFollow_of_none (prev : List (String × String)) :
    ∀ k, prevFollow prev k none = none := by
  intro k
  cases k <;> rfl

theorem alookupS_cons_pos {p : String × String} {ps : List (String × String)}
    {x : String} (h : p.1 = x) : alookupS (p :: ps) x = some p.2 := by
  simp [alookupS, List.find?_cons_of_pos, h]

theorem alookupS_cons_neg {p : String × String} {ps : List (String × String)}
    {x : String} (h : ¬ p.1 = x) : alookupS (p :: ps) x = alookupS ps x := by
  unfold alookupS
  rw [List.find?_cons_of_neg]
  simp [h]

theorem alookupS_eq_none (prev : List (String × String)) (x : String)
    (h : x ∉ prevKeys prev) : alookupS prev x = none := by
  induction prev with
  | nil => rfl
  | cons p ps ih =>
    have hne : ¬ p.1 = x := by
      intro he
      exact h (by simp [prevKeys, he])
    rw [alookupS_cons_neg hne]
    exact ih (fun hk => h (by simp [prevKeys] at hk ⊢; exact Or.inr hk))

theorem alookupS_eq_some (prev : List (String × String)) (x v : String)
    (h : alookupS prev x = some v) :
    ∃ l1 l2, prev = l1 ++ (x, v) :: l2 ∧ x ∉ prevKeys l1 := by
  induction prev with
  | nil => simp [alookupS] at h
  | cons p ps ih =>
    by_cases hp : p.1 = x
    · rw [alookupS_cons_pos hp] at h
      have hpe : p = (x, v) := by
        rcases p with ⟨a, b⟩
        simp only at hp h
        simp only [Option.some.injEq] at h
        rw [hp, h]
      exact ⟨[], ps, by rw [hpe]; simp, by simp [prevKeys]⟩
    · rw [alookupS_cons_neg hp] at h
      rcases ih h with ⟨l1, l2, hsp, hnk⟩
      refine ⟨p :: l1, l2, by rw [hsp]; simp, ?_⟩
      intro hk
      simp only [prevKeys, List.map_cons, List.mem_cons] at hk
      rcases hk with hk1 | hk1
      · exact hp hk1.symm
      · exact hnk hk1

theorem nodup_split_unique {α : Type} :
    ∀ (a a' b b' : List α) (k : α), (a ++ k :: b).Nodup →
    a ++ k :: b = a' ++ k :: b' → a = a' := by
  intro a
  induction a with
  | nil =>
    intro a' b b' k hnd heq
    cases a' with
    | nil => rfl
    | cons h' t' =>
      simp only [List.nil_append, List.cons_append, List.cons.injEq] at heq
      exfalso
      have hkb : k ∈ b := by
        rw [heq.2]
        simp [heq.1]
      simp only [List.nil_append, List.nodup_cons] at hnd
      exact hnd.1 hkb
  | cons h t ih =>
    intro a' b b' k hnd heq
    cases a' with
    | nil =>
      simp only [List.cons_append, List.nil_append, List.cons.injEq] at heq
      exfalso
      simp only [List.cons_append, List.nodup_cons] at hnd
      apply hnd.1
      rw [heq.1]
      simp
    | cons h' t' =>
      simp only [List.cons_append, List.cons.injEq] at heq
      have ht := ih t' b b' k (by
        simp only [List.cons_append, List.nodup_cons] at hnd
        exact hnd.2) heq.2
      rw [heq.1, ht]

theorem prevFollow_descend (prev : List (String × String)) (starts : List String)
    (hnd : (prevKeys prev).Nodup)
    (hptr : ∀ l1 k v l2, prev = l1 ++ (k, v) :: l2 → v ∈ starts ∨ v ∈ prevKeys l1)
    (hdisj : ∀ k ∈ prevKeys prev, k ∉ starts) :
    ∀ m x, (∀ l1 v l2, prev = l1 ++ (x, v) :: l2 → l1.length < m) →
    prevFollow prev (m + 1) (some x) = none := by
  intro m
  induction m with
  | zero =>
    intro x hx
    have hxk : x ∉ prevKeys prev := by
      intro hk
      rcases List.mem_map.mp hk with ⟨q, hq, hq1⟩
      rcases List.append_of_mem hq with ⟨la, lb, hla⟩
      have hqe : q = (x, q.2) := by
        rcases q with ⟨a, b⟩
        simp only at hq1 ⊢
        rw [hq1]
      have := hx la q.2 lb (by rw [hla, hqe])
      omega
    show prevFollow prev 1 (some x) = none
    simp only [prevFollow, alookupS_eq_none prev x hxk]
  | succ m ih =>
    intro x hx
    rcases hlook : alookupS prev x with _ | v
    · show prevFollow prev (m + 1 + 1) (some x) = none
      simp only [prevFollow, hlook, prevFollow_of_none]
    · rcases alookupS_eq_some prev x v hlook with ⟨l1, l2, hsp, hxl1⟩
      have hlen : l1.length < m + 1 := hx l1 v l2 hsp
      have hstep : prevFollow prev (m + 1 + 1) (some x) =
          prevFollow prev (m + 1) (some v) := by
        simp only [prevFollow, hlook]
      rcases hptr l1 x v l2 hsp with hvs | hvk
      · have hvnk : v ∉ prevKeys prev := fun hk => hdisj v hk hvs
        rw [hstep]
        simp only [prevFollow, alookupS_eq_none prev v hvnk, prevFollow_of_none]
      · rw [hstep]
        apply ih
        intro l1' v' l2' hsp'
        -- locate the first assignment of v inside l1
        rcases List.mem_map.mp hvk with ⟨q, hq, hq1⟩
        rcases List.append_of_mem hq with ⟨la, lb, hla⟩
        have hqe : q = (v, q.2) := by
          rcases q with ⟨a, b⟩
          simp only at hq1 ⊢
          rw [hq1]
        have hsp2 : prev = la ++ (v, q.2) :: (lb ++ (x, v) :: l2) := by
          rw [hsp, hla, hqe]
          simp
        -- the keys of any two decompositions at the key v agree
        have hkeys1 : prevKeys prev = prevKeys l1' ++ v :: prevKeys l2' := by
          rw [hsp']
          simp [prevKeys]
        have hkeys2 : prevKeys prev = prevKeys la ++ v :: prevKeys (lb ++ (x, v) :: l2) := by
          rw [hsp2]
          simp [prevKeys]
        have hagree : prevKeys l1' = prevKeys la := by
          apply nodup_split_unique (prevKeys l1') (prevKeys la) (prevKeys l2')
            (prevKeys (lb ++ (x, v) :: l2)) v
          · rw [← hkeys1]
            exact hnd
          · rw [← hkeys1, ← hkeys2]
        have hlen1 : l1'.length = la.length := by
          have := congrArg List.length hagree
          simpa [prevKeys] using this
        have hlen2 : la.length < l1.length := by
          have := congrArg List.length hla
          simp at this
          omega
        omega

/-- C10: in the state produced by the growth loop of sub_graph_between_nodes,
each prev back-pointer key is assigned exactly once, and following prev
pointers from any node reaches an unassigned node within one step per
assignment, so the diagnostic path-reconstruction loop terminates. -/
theorem subgraph_prev_forest (g : MGraph) (startNodes endNodes : List String) :
    (prevKeys ((sgRun g startNodes endNodes).getD sgDefault).prev).Nodup ∧
    ∀ x, prevFollow ((sgRun g startNodes endNodes).getD sgDefault).prev
      (((sgRun g startNodes endNodes).getD sgDefault).prev.length + 1) (some x) = none := by
  have hrun := option_eq_some_getD (sgRun g startNodes endNodes) sgDefault
    (sgRun_isSome g startNodes endNodes)
  have hinv : sgInv startNodes ((sgRun g startNodes endNodes).getD sgDefault) := by
    apply sgLoop_inv g startNodes endNodes (sgFuel g startNodes) (sgInit startNodes)
    · exact hrun
    · exact sgInit_inv startNodes
  rcases hinv with ⟨h1, h2, h3, h4, h5⟩
  refine ⟨h2, ?_⟩
  intro x
  apply prevFollow_descend _ startNodes h2 h4 h5
  intro l1 v l2 hsp
  have := congrArg List.length hsp
  simp at this
  omega

/-!  The reachability validation pass of sub_graph_between_nodes. -/

theorem foldl_dfs_sound (g : MGraph) :
    ∀ (l : List String) (v : Finset String),
    ∀ x ∈ l.foldl (fun v s => (dfs g s v).2) v,
    x ∈ v ∨ ∃ s ∈ l, Reaches g s x := by
  intro l
  induction l with
  | nil => intro v x hx; exact Or.inl hx
  | cons s rest ih =>
    intro v x hx
    simp only [List.foldl_cons] at hx
    rcases ih (dfs g s v).2 x hx with h1 | ⟨s', hs', hr⟩
    · rcases dfs_reach_sound g s v x h1 with h2 | h2
      · exact Or.inl h2
      · exact Or.inr ⟨s, List.mem_cons_self s rest, h2⟩
    · exact Or.inr ⟨s', List.mem_cons_of_mem _ hs', hr⟩

theorem foldl_dfs_mono (g : MGraph) :
    ∀ (l : List String) (v : Finset String),
    v ⊆ l.foldl (fun v s => (dfs g s v).2) v := by
  intro l
  induction l with
  | nil => intro v; exact Finset.Subset.refl _
  | cons s rest ih =>
    intro v
    simp only [List.foldl_cons]
    exact Finset.Subset.trans (dfs_visited_mono g s v) (ih (dfs g s v).2)

theorem foldl_dfs_starts (g : MGraph) :
    ∀ (l : List String) (v : Finset String),
    ∀ s ∈ l, s ∈ l.foldl (fun v s => (dfs g s v).2) v := by
  intro l
  induction l with
  | nil => intro v s hs; simp at hs
  | cons s0 rest ih =>
    intro v s hs
    simp only [List.foldl_cons]
    rcases List.mem_cons.mp hs with h1 | h1
    · apply foldl_dfs_mono g rest (dfs g s0 v).2
      exact h1 ▸ (dfs_visited_eq g s0 v s0).mpr (Or.inr (dfs_start_mem g s0 v))
    · exact ih (dfs g s0 v).2 s h1

theorem foldl_dfs_closed (g : MGraph) :
    ∀ (l : List String) (v : Finset String),
    (∀ e ∈ g.edges, e.1 ∈ v → e.2 ∈ v) →
    ∀ e ∈ g.edges, e.1 ∈ l.foldl (fun v s => (dfs g s v).2) v →
      e.2 ∈ l.foldl (fun v s => (dfs g s v).2) v := by
  intro l
  induction l with
  | nil => intro v h; exact h
  | cons s rest ih =>
    intro v h
    simp only [List.foldl_cons]
    apply ih (dfs g s v).2
    intro e he h1
    rcases (dfs_visited_eq g s v e.1).mp h1 with h2 | h2
    · exact dfs_visited_mono g s v (h e he h2)
    · exact dfs_closure g s v e he h2

theorem forwardVisited_iff (g : MGraph) (startNodes : List String) :
    ∀ x, x ∈ forwardVisited g startNodes ↔ ReachesAny g startNodes x := by
  intro x
  constructor
  · intro hx
    rcases foldl_dfs_sound g startNodes ∅ x hx with h1 | h1
    · simp at h1
    · exact h1
  · rintro ⟨s, hs, hr⟩
    have hstart : s ∈ forwardVisited g startNodes :=
      foldl_dfs_starts g startNodes ∅ s hs
    have hclosed := foldl_dfs_closed g startNodes ∅ (by simp)
    clear hs
    induction hr with
    | refl => exact hstart
    | tail h1 h2 ih => exact hclosed _ h2 ih

/-- C3: the reachability check accumulates forward visits from every start
node into one shared set that holds exactly the forward-reachable nodes, and
whenever some end node lies outside it, extraction fails with an error naming
such an end node together with the start set. -/
theorem subgraph_unreachable_end_error (g : MGraph) (startNodes endNodes : List String) :
    (∀ x, x ∈ forwardVisited g startNodes ↔ ReachesAny g startNodes x) ∧
    ((∃ e ∈ endNodes, ¬ ReachesAny g startNodes e) →
      ∃ e ∈ endNodes, ¬ ReachesAny g startNodes e ∧
        sub_graph_between_nodes g startNodes endNodes =
          .error (.endNodeUnreachable e startNodes)) := by
  refine ⟨forwardVisited_iff g startNodes, ?_⟩
  rintro ⟨e0, he0, hne⟩
  have hsome : (endNodes.find? (fun e => !decide (e ∈ forwardVisited g startNodes))).isSome := by
    rw [List.find?_isSome]
    refine ⟨e0, he0, ?_⟩
    simp only [Bool.not_eq_true', decide_eq_false_iff_not]
    intro hmem
    exact hne ((forwardVisited_iff g startNodes e0).mp hmem)
  rcases hfind : endNodes.find? (fun e => !decide (e ∈ forwardVisited g startNodes)) with _ | e1
  · rw [hfind] at hsome
    simp at hsome
  · have hmem : e1 ∈ endNodes := List.mem_of_find?_eq_some hfind
    have hprop := List.find?_some hfind
    simp at hprop
    refine ⟨e1, hmem, ?_, ?_⟩
    · intro hr
      exact hprop ((forwardVisited_iff g startNodes e1).mpr hr)
    · simp only [sub_graph_between_nodes, hfind]

/-- Witness for C3: on the graph with edge A -> B and isolated C, extraction
from A to C fails naming C and the start set. -/
theorem subgraph_unreachable_end_error_witness :
    (∃ e ∈ ["C"], ¬ ReachesAny gUnreach ["A"] e) ∧
    ∃ e ∈ ["C"], ¬ ReachesAny gUnreach ["A"] e ∧
      sub_graph_between_nodes gUnreach ["A"] ["C"] =
        .error (.endNodeUnreachable e ["A"]) := by
  have hnot : "C" ∉ forwardVisited gUnreach ["A"] := by decide
  have hur : ¬ ReachesAny gUnreach ["A"] "C" := fun hr =>
    hnot ((forwardVisited_iff gUnreach ["A"] "C").mpr hr)
  exact ⟨⟨"C", by simp, hur⟩,
    (subgraph_unreachable_end_error gUnreach ["A"] ["C"]).2 ⟨"C", by simp, hur⟩⟩

/-- C4: a successful extraction never returns a node carrying the sentinel op
tag 'Placeholder'; and when every end node passes the reachability check but
some region node carries the sentinel, extraction fails naming such a node. -/
theorem subgraph_placeholder_error (g : MGraph) (startNodes endNodes : List String) :
    (∀ res, sub_graph_between_nodes g startNodes endNodes = .ok res →
      ∀ n ∈ res, ¬ (g.opAttr n).getD "" = "Placeholder") ∧
    ((∀ e ∈ endNodes, e ∈ forwardVisited g startNodes) →
     (∃ n ∈ ((sgRun g startNodes endNodes).getD sgDefault).subGraphNodes,
        (g.opAttr n).getD "" = "Placeholder") →
     ∃ n, (g.opAttr n).getD "" = "Placeholder" ∧
       sub_graph_between_nodes g startNodes endNodes =
         .error (.containsPlaceholder n)) := by
  constructor
  · intro res hres n hn
    rcases hf1 : endNodes.find? (fun e => !decide (e ∈ forwardVisited g startNodes)) with _ | e1
    · rcases hf2 : (((sgRun g startNodes endNodes).getD sgDefault).subGraphNodes).find?
          (fun n => decide ((g.opAttr n).getD "" = "Placeholder")) with _ | n1
      · simp only [sub_graph_between_nodes, hf1, hf2, Except.ok.injEq] at hres
        have hall := List.find?_eq_none.mp hf2
        have := hall n (hres ▸ hn)
        simpa using this
      · simp [sub_graph_between_nodes, hf1, hf2] at hres
    · simp [sub_graph_between_nodes, hf1] at hres
  · intro hreach ⟨n0, hn0, hplc⟩
    have hf1 : endNodes.find? (fun e => !decide (e ∈ forwardVisited g startNodes)) = none := by
      rw [List.find?_eq_none]
      intro e he
      simp
      exact hreach e he
    have hsome : ((((sgRun g startNodes endNodes).getD sgDefault).subGraphNodes).find?
        (fun n => decide ((g.opAttr n).getD "" = "Placeholder"))).isSome := by
      rw [List.find?_isSome]
      exact ⟨n0, hn0, by simpa using hplc⟩
    rcases hf2 : (((sgRun g startNodes endNodes).getD sgDefault).subGraphNodes).find?
        (fun n => decide ((g.opAttr n).getD "" = "Placeholder")) with _ | n1
    · rw [hf2] at hsome
      simp at hsome
    · have hprop := List.find?_some hf2
      simp only [decide_eq_true_eq] at hprop
      refine ⟨n1, hprop, ?_⟩
      simp only [sub_graph_between_nodes, hf1, hf2]

/-- Witness for C4 on the edge A -> B with B tagged Placeholder. -/
theorem subgraph_placeholder_error_witness :
    (∀ e ∈ ["B"], e ∈ forwardVisited gPlc ["A"]) ∧
    (∃ n ∈ ((sgRun gPlc ["A"] ["B"]).getD sgDefault).subGraphNodes,
       (gPlc.opAttr n).getD "" = "Placeholder") ∧
    ∃ n, (gPlc.opAttr n).getD "" = "Placeholder" ∧
      sub_graph_between_nodes gPlc ["A"] ["B"] = .error (.containsPlaceholder n) := by
  refine ⟨by decide, by decide, ?_⟩
  exact (subgraph_placeholder_error gPlc ["A"] ["B"]).2 (by decide) (by decide)

theorem bbfsScan_ret_nodup (g : MGraph) (opNames : List String) :
    ∀ l ret, ret.Nodup → (bbfsScan g opNames l ret).2.Nodup := by
  intro l
  induction l with
  | nil => intro ret h; exact h
  | cons p ps ih =>
    intro ret h
    by_cases hk : g.kind p = "op"
    · rcases hop : g.opAttr p with _ | op
      · simp only [bbfsScan, if_pos hk, hop]
        exact ih ret h
      · by_cases hmem : op ∈ opNames
        · simp only [bbfsScan, if_pos hk, hop, if_pos hmem]
          apply ih
          by_cases hp : p ∈ ret
          · simp only [if_pos hp]
            exact h
          · simp only [if_neg hp]
            rw [List.nodup_append]
            refine ⟨h, List.nodup_singleton p, ?_⟩
            intro a ha ha2
            simp only [List.mem_singleton] at ha2
            exact hp (ha2 ▸ ha)
        · simp only [bbfsScan, if_pos hk, hop, if_neg hmem]
          exact ih ret h
    · by_cases hd : g.kind p = "data" ∧ g.hasValue p = false
      · simp only [bbfsScan, if_neg hk, if_pos hd]
        exact ih ret h
      · simp only [bbfsScan, if_neg hk, if_neg hd]
        exact ih ret h

theorem bbfsLoop_ret_nodup (g : MGraph) (opNames : List String) :
    ∀ fuel q ret res, ret.Nodup → bbfsLoop g opNames fuel q ret = some res →
    res.Nodup := by
  intro fuel
  induction fuel with
  | zero => intro q ret res _ h; simp [bbfsLoop] at h
  | succ fuel ih =>
    intro q ret res hnd h
    match q with
    | [] =>
      simp only [bbfsLoop, Option.some.injEq] at h
      exact h ▸ hnd
    | n :: rest =>
      simp only [bbfsLoop] at h
      exact ih _ _ _ (bbfsScan_ret_nodup g opNames (g.inNodesOf n) ret hnd) h

/-- C6: on start <- data(no value) <- Conv <- Conv, backward search for Conv
returns exactly the nearest Conv and does not continue past it; on
start <- data(constant value) <- Conv the data node is a dead end and the
result is empty; and in general the result list of the loop is deduplicated
whenever the accumulated result it starts from is. -/
theorem backward_bfs_examples :
    backward_bfs_for_operation gBB1 "S" ["Conv"] 5 = some ["C"] ∧
    backward_bfs_for_operation gBB2 "S" ["Conv"] 5 = some [] ∧
    ∀ (g : MGraph) (opNames : List String) (fuel : Nat) (q ret res : List String),
      ret.Nodup → bbfsLoop g opNames fuel q ret = some res → res.Nodup := by
  refine ⟨rfl, rfl, ?_⟩
  intro g opNames fuel q ret res h1 h2
  exact bbfsLoop_ret_nodup g opNames fuel q ret res h1 h2

/-- Witness for C6: the general deduplication conjunct applied to the first
concrete run. -/
theorem backward_bfs_examples_witness :
    ([] : List String).Nodup ∧ (["C"] : List String).Nodup :=
  ⟨List.nodup_nil,
   backward_bfs_examples.2.2 gBB1 ["Conv"] 5 ["S"] [] ["C"] List.nodup_nil rfl⟩

/-!  is_connected_component: the BFS visits exactly the undirected-reachable
members of the node list. -/

theorem mem_iccAdj {g : MGraph} {nodeNames : List String} {cur a : String} :
    a ∈ iccAdj g nodeNames cur ↔
    a ∈ nodeNames ∧ ((a, cur) ∈ g.edges ∨ (cur, a) ∈ g.edges) := by
  constructor
  · intro ha
    rcases List.mem_append.mp ha with h1 | h1
    · have h2 := List.mem_of_mem_filter h1
      have h3 := List.of_mem_filter h1
      simp only [decide_eq_true_eq] at h3
      rcases List.mem_map.mp h2 with ⟨e, he, rfl⟩
      rcases inEdges_subset he with ⟨hee, he2⟩
      refine ⟨h3, Or.inl ?_⟩
      have : e = (e.1, cur) := by
        rcases e with ⟨x, y⟩
        simp only at he2 ⊢
        rw [he2]
      exact this ▸ hee
    · have h2 := List.mem_of_mem_filter h1
      have h3 := List.of_mem_filter h1
      simp only [decide_eq_true_eq] at h3
      rcases List.mem_map.mp h2 with ⟨e, he, rfl⟩
      rcases outEdges_subset he with ⟨hee, he1⟩
      refine ⟨h3, Or.inr ?_⟩
      have : e = (cur, e.2) := by
        rcases e with ⟨x, y⟩
        simp only at he1 ⊢
        rw [he1]
      exact this ▸ hee
  · rintro ⟨hids, he | he⟩
    · apply List.mem_append_left
      apply List.mem_filter.mpr
      refine ⟨?_, by simpa using hids⟩
      apply List.mem_map.mpr
      exact ⟨(a, cur), mem_inEdges.mpr ⟨he, rfl⟩, rfl⟩
    · apply List.mem_append_right
      apply List.mem_filter.mpr
      refine ⟨?_, by simpa using hids⟩
      apply List.mem_map.mpr
      exact ⟨(cur, a), mem_outEdges.mpr ⟨he, rfl⟩, rfl⟩

theorem iccEnq_visited_mono :
    ∀ l (s : List String × Finset String), s.2 ⊆ (iccEnq l s).2 := by
  intro l
  induction l with
  | nil => intro s; exact Finset.Subset.refl _
  | cons a rest ih =>
    intro s
    by_cases ha : a ∈ s.2
    · simp only [iccEnq, if_pos ha]
      exact ih s
    · simp only [iccEnq, if_neg ha]
      exact fun x hx => ih _ (Finset.mem_insert_of_mem hx)

theorem iccEnq_queue_mono :
    ∀ l (s : List String × Finset String), ∀ x ∈ s.1, x ∈ (iccEnq l s).1 := by
  intro l
  induction l with
  | nil => intro s x hx; exact hx
  | cons a rest ih =>
    intro s x hx
    by_cases ha : a ∈ s.2
    · simp only [iccEnq, if_pos ha]
      exact ih s x hx
    · simp only [iccEnq, if_neg ha]
      exact ih _ x (List.mem_append_left _ hx)

theorem iccEnq_visited_source :
    ∀ l (s : List String × Finset String),
    ∀ x ∈ (iccEnq l s).2, x ∈ s.2 ∨ x ∈ l := by
  intro l
  induction l with
  | nil => intro s x hx; exact Or.inl hx
  | cons a rest ih =>
    intro s x hx
    by_cases ha : a ∈ s.2
    · rcases ih s x (by simpa [iccEnq, if_pos ha] using hx) with h1 | h1
      · exact Or.inl h1
      · exact Or.inr (List.mem_cons_of_mem _ h1)
    · simp only [iccEnq, if_neg ha] at hx
      rcases ih _ x hx with h1 | h1
      · rcases Finset.mem_insert.mp h1 with h2 | h2
        · exact Or.inr (h2 ▸ List.mem_cons_self a rest)
        · exact Or.inl h2
      · exact Or.inr (List.mem_cons_of_mem _ h1)

theorem iccEnq_adds :
    ∀ l (s : List String × Finset String), ∀ a ∈ l, a ∈ (iccEnq l s).2 := by
  intro l
  induction l with
  | nil => intro s a ha; simp at ha
  | cons a0 rest ih =>
    intro s a ha
    by_cases h0 : a0 ∈ s.2
    · simp only [iccEnq, if_pos h0]
      rcases List.mem_cons.mp ha with h1 | h1
      · exact iccEnq_visited_mono rest s (h1 ▸ h0)
      · exact ih s a h1
    · simp only [iccEnq, if_neg h0]
      rcases List.mem_cons.mp ha with h1 | h1
      · exact iccEnq_visited_mono rest _ (h1 ▸ Finset.mem_insert_self a0 s.2)
      · exact ih _ a h1

theorem iccEnq_new_queued :
    ∀ l (s : List String × Finset String),
    ∀ x ∈ (iccEnq l s).2, x ∈ s.2 ∨ x ∈ (iccEnq l s).1 := by
  intro l
  induction l with
  | nil => intro s x hx; exact Or.inl hx
  | cons a rest ih =>
    intro s x hx
    by_cases ha : a ∈ s.2
    · simp only [iccEnq, if_pos ha] at hx ⊢
      exact ih s x hx
    · simp only [iccEnq, if_neg ha] at hx ⊢
      rcases ih _ x hx with h1 | h1
      · rcases Finset.mem_insert.mp h1 with h2 | h2
        · refine Or.inr (iccEnq_queue_mono rest _ x ?_)
          exact List.mem_append_right _ (by simp [h2])
        · exact Or.inl h2
      · exact Or.inr h1

theorem iccEnq_queue_sub_visited :
    ∀ l (s : List String × Finset String), (∀ x ∈ s.1, x ∈ s.2) →
    ∀ x ∈ (iccEnq l s).1, x ∈ (iccEnq l s).2 := by
  intro l
  induction l with
  | nil => intro s h x hx; exact h x hx
  | cons a rest ih =>
    intro s h x hx
    by_cases ha : a ∈ s.2
    · simp only [iccEnq, if_pos ha] at hx ⊢
      exact ih s h x hx
    · simp only [iccEnq, if_neg ha] at hx ⊢
      apply ih _ ?_ x hx
      intro y hy
      rcases List.mem_append.mp hy with h1 | h1
      · exact Finset.mem_insert_of_mem (h y h1)
      · simp at h1
        exact h1 ▸ Finset.mem_insert_self a s.2

theorem iccLoop_visited_mono (g : MGraph) (nodeNames : List String) :
    ∀ fuel q visited visitedF,
    iccLoop g nodeNames fuel q visited = some visitedF → visited ⊆ visitedF := by
  intro fuel
  induction fuel with
  | zero => intro q visited visitedF h; simp [iccLoop] at h
  | succ fuel ih =>
    intro q visited visitedF h
    match q with
    | [] =>
      simp only [iccLoop, Option.some.injEq] at h
      exact h ▸ Finset.Subset.refl _
    | cur :: rest =>
      simp only [iccLoop] at h
      intro x hx
      exact ih _ _ _ h (iccEnq_visited_mono _ _ (Finset.mem_insert_of_mem hx))

theorem iccLoop_sound (g : MGraph) (nodeNames : List String) (h0 : String)
    (hh0 : h0 ∈ nodeNames) :
    ∀ fuel q visited visitedF,
    iccLoop g nodeNames fuel q visited = some visitedF →
    (∀ x ∈ visited, RReach g nodeNames h0 x ∧ x ∈ insert h0 nodeNames.toFinset) →
    (∀ x ∈ q, x ∈ visited) →
    ∀ x ∈ visitedF, RReach g nodeNames h0 x ∧ x ∈ insert h0 nodeNames.toFinset := by
  intro fuel
  induction fuel with
  | zero => intro q visited visitedF h; simp [iccLoop] at h
  | succ fuel ih =>
    intro q visited visitedF h hvis hq
    match q with
    | [] =>
      simp only [iccLoop, Option.some.injEq] at h
      exact h ▸ hvis
    | cur :: rest =>
      simp only [iccLoop] at h
      have hcur := hvis cur (hq cur (List.mem_cons_self cur rest))
      apply ih _ _ _ h
      · intro x hx
        rcases iccEnq_visited_source _ _ x hx with h1 | h1
        · rcases Finset.mem_insert.mp h1 with h2 | h2
          · exact h2 ▸ hcur
          · exact hvis x h2
        · -- x is adjacent to cur inside nodeNames
          rcases mem_iccAdj.mp h1 with ⟨hids, hedge⟩
          have hcurids : cur ∈ nodeNames := by
            rcases Finset.mem_insert.mp hcur.2 with h3 | h3
            · exact h3 ▸ hh0
            · exact List.mem_toFinset.mp h3
          refine ⟨Relation.ReflTransGen.tail hcur.1 ?_, Finset.mem_insert_of_mem (List.mem_toFinset.mpr hids)⟩
          exact ⟨hcurids, hids, hedge.symm⟩
      · intro x hx
        exact iccEnq_queue_sub_visited _ _ (fun y hy => Finset.mem_insert_of_mem (hq y (List.mem_cons_of_mem _ hy))) x hx

theorem iccLoop_closed (g : MGraph) (nodeNames : List String) :
    ∀ fuel q visited visitedF,
    iccLoop g nodeNames fuel q visited = some visitedF →
    (∀ x ∈ visited, (∀ a ∈ iccAdj g nodeNames x, a ∈ visited) ∨ x ∈ q) →
    ∀ x ∈ visitedF, ∀ a ∈ iccAdj g nodeNames x, a ∈ visitedF := by
  intro fuel
  induction fuel with
  | zero => intro q visited visitedF h; simp [iccLoop] at h
  | succ fuel ih =>
    intro q visited visitedF h hpend
    match q with
    | [] =>
      simp only [iccLoop, Option.some.injEq] at h
      subst h
      intro x hx a ha
      rcases hpend x hx with h1 | h1
      · exact h1 a ha
      · simp at h1
    | cur :: rest =>
      simp only [iccLoop] at h
      apply ih _ _ _ h
      intro x hx
      rcases iccEnq_new_queued _ _ x hx with h1 | h1
      · rcases Finset.mem_insert.mp h1 with h2 | h2
        · -- x = cur: all its adjacents were just enqueued or already visited
          subst h2
          left
          intro a ha
          exact iccEnq_adds _ _ a ha
        · rcases hpend x h2 with h3 | h3
          · left
            intro a ha
            exact iccEnq_visited_mono _ _ (Finset.mem_insert_of_mem (h3 a ha))
          · rcases List.mem_cons.mp h3 with h4 | h4
            · subst h4
              left
              intro a ha
              exact iccEnq_adds _ _ a ha
            · right
              exact iccEnq_queue_mono _ _ x h4
      · right
        exact h1

theorem iccEnq_measure (univ : Finset String) :
    ∀ l (s : List String × Finset String), (∀ a ∈ l, a ∈ univ) →
    (univ \ (iccEnq l s).2).card + (iccEnq l s).1.length ≤
    (univ \ s.2).card + s.1.length := by
  intro l
  induction l with
  | nil => intro s _; exact Nat.le_refl _
  | cons a rest ih =>
    intro s hu
    by_cases ha : a ∈ s.2
    · simp only [iccEnq, if_pos ha]
      exact ih s (fun a' ha' => hu a' (List.mem_cons_of_mem _ ha'))
    · simp only [iccEnq, if_neg ha]
      have hcard := card_sdiff_insert_of_mem (hu a (List.mem_cons_self a rest)) ha
      have h2 := ih (s.1 ++ [a], insert a s.2)
        (fun a' ha' => hu a' (List.mem_cons_of_mem _ ha'))
      simp only [List.length_append, List.length_cons, List.length_nil] at h2
      omega

theorem iccLoop_isSome (g : MGraph) (nodeNames : List String) (univ : Finset String)
    (hu : ∀ e ∈ g.edges, e.1 ∈ univ ∧ e.2 ∈ univ) :
    ∀ fuel q visited, (univ \ visited).card + q.length < fuel →
    (iccLoop g nodeNames fuel q visited).isSome := by
  intro fuel
  induction fuel with
  | zero => intro q visited h; omega
  | succ fuel ih =>
    intro q visited h
    match q with
    | [] => simp [iccLoop]
    | cur :: rest =>
      simp only [iccLoop]
      apply ih
      have hadj : ∀ a ∈ iccAdj g nodeNames cur, a ∈ univ := by
        intro a ha
        rcases mem_iccAdj.mp ha with ⟨-, he | he⟩
        · exact (hu (a, cur) he).1
        · exact (hu (cur, a) he).2
      have h1 := iccEnq_measure univ (iccAdj g nodeNames cur) (rest, insert cur visited) hadj
      simp only [List.length_cons] at h1
      have h2 : (univ \ insert cur visited).card ≤ (univ \ visited).card := by
        apply Finset.card_le_card
        intro x hx
        rcases Finset.mem_sdiff.mp hx with ⟨hx1, hx2⟩
        exact Finset.mem_sdiff.mpr ⟨hx1, fun hv => hx2 (Finset.mem_insert_of_mem hv)⟩
      simp only [List.length_cons] at h
      omega

theorem icc_true_iff (g : MGraph) (a : String) (t : List String) :
    is_connected_component g (a :: t) = true ↔
    ∀ x ∈ a :: t, RReach g (a :: t) a x := by
  have hsome : (iccLoop g (a :: t) (iccFuel g) [a] {a}).isSome := by
    apply iccLoop_isSome g (a :: t) (insert a g.nodes.toFinset)
    · intro e he
      exact ⟨Finset.mem_insert_of_mem (List.mem_toFinset.mpr (g.wf e he).1),
             Finset.mem_insert_of_mem (List.mem_toFinset.mpr (g.wf e he).2)⟩
    · have h1 : ((insert a g.nodes.toFinset) \ {a}).card ≤ g.nodes.length := by
        calc ((insert a g.nodes.toFinset) \ {a}).card
            ≤ g.nodes.toFinset.card := by
              apply Finset.card_le_card
              intro x hx
              rcases Finset.mem_sdiff.mp hx with ⟨hx1, hx2⟩
              rcases Finset.mem_insert.mp hx1 with h2 | h2
              · exact absurd (by simp [h2]) hx2
              · exact h2
          _ ≤ g.nodes.length := g.nodes.toFinset_card_le
      simp only [iccFuel, List.length_cons, List.length_nil]
      omega
  rcases hrun : iccLoop g (a :: t) (iccFuel g) [a] {a} with _ | vF
  · rw [hrun] at hsome
    simp at hsome
  · have hinit1 : ∀ x ∈ ({a} : Finset String),
        RReach g (a :: t) a x ∧ x ∈ insert a (a :: t).toFinset := by
      intro x hx
      rcases Finset.mem_singleton.mp hx with rfl
      exact ⟨Relation.ReflTransGen.refl, Finset.mem_insert_self _ _⟩
    have hsound := iccLoop_sound g (a :: t) a (List.mem_cons_self a t) _ _ _ _ hrun
      hinit1 (by intro x hx; simpa using hx)
    have hclosed := iccLoop_closed g (a :: t) _ _ _ _ hrun
      (by
        intro x hx
        right
        simpa using Finset.mem_singleton.mp hx)
    have hav : a ∈ vF :=
      iccLoop_visited_mono g (a :: t) _ _ _ _ hrun (Finset.mem_singleton_self a)
    have hkey : ∀ y, RReach g (a :: t) a y → y ∈ vF := by
      intro y hy
      induction hy with
      | refl => exact hav
      | tail h1 h2 ih =>
        apply hclosed _ ih
        rw [mem_iccAdj]
        exact ⟨h2.2.1, h2.2.2.symm⟩
    simp only [is_connected_component, hrun, decide_eq_true_eq]
    constructor
    · intro hall x hx
      exact (hsound x (hall x hx)).1
    · intro hall x hx
      exact hkey x (hall x hx)

/-- C7: the connectivity check returns true exactly when every listed node is
reachable from the first listed node through undirected edges whose endpoints
both lie in the list; the empty list is vacuously connected; and on the chain
A -> B -> C the check on [A, C] returns false because B mediates the only
path but is outside the set. -/
theorem is_connected_component_spec :
    (∀ g : MGraph, is_connected_component g [] = true) ∧
    (∀ (g : MGraph) (a : String) (t : List String),
      (is_connected_component g (a :: t) = true ↔
        ∀ x ∈ a :: t, RReach g (a :: t) a x)) ∧
    is_connected_component chainABC ["A", "C"] = false := by
  exact ⟨fun g => rfl, fun g a t => icc_true_iff g a t, rfl⟩

/-!  node_neighbourhood: dictionary lemmas. -/

theorem alookupN_cons_pos {p : String × Nat} {ps : List (String × Nat)}
    {x : String} (h : p.1 = x) : alookupN (p :: ps) x = some p.2 := by
  simp [alookupN, List.find?_cons_of_pos, h]

theorem alookupN_cons_neg {p : String × Nat} {ps : List (String × Nat)}
    {x : String} (h : ¬ p.1 = x) : alookupN (p :: ps) x = alookupN ps x := by
  unfold alookupN
  rw [List.find?_cons_of_neg]
  simp [h]

theorem alookupN_eq_none (l : List (String × Nat)) (x : String)
    (h : x ∉ distKeys l) : alookupN l x = none := by
  induction l with
  | nil => rfl
  | cons p ps ih =>
    have hne : ¬ p.1 = x := fun he => h (by simp [distKeys, he])
    rw [alookupN_cons_neg hne]
    exact ih (fun hk => h (by simp [distKeys] at hk ⊢; exact Or.inr hk))

theorem alookupN_mem_keys {l : List (String × Nat)} {x : String} {d : Nat}
    (h : alookupN l x = some d) : x ∈ distKeys l := by
  by_contra hc
  rw [alookupN_eq_none l x hc] at h
  exact Option.noConfusion h

theorem alookupN_isSome_of_mem {l : List (String × Nat)} {x : String}
    (h : x ∈ distKeys l) : ∃ d, alookupN l x = some d := by
  induction l with
  | nil => simp [distKeys] at h
  | cons p ps ih =>
    by_cases hp : p.1 = x
    · exact ⟨p.2, alookupN_cons_pos hp⟩
    · rw [alookupN_cons_neg hp]
      apply ih
      simp only [distKeys, List.map_cons, List.mem_cons] at h
      rcases h with h1 | h1
      · exact absurd h1.symm hp
      · exact h1

theorem distKeys_append (l1 l2 : List (String × Nat)) :
    distKeys (l1 ++ l2) = distKeys l1 ++ distKeys l2 := by
  simp [distKeys]

theorem alookupN_append_left {l1 : List (String × Nat)} {x : String} {d : Nat}
    (l2 : List (String × Nat)) (h : alookupN l1 x = some d) :
    alookupN (l1 ++ l2) x = some d := by
  induction l1 with
  | nil => simp [alookupN] at h
  | cons p ps ih =>
    by_cases hp : p.1 = x
    · rw [alookupN_cons_pos hp] at h
      rw [List.cons_append, alookupN_cons_pos hp]
      exact h
    · rw [alookupN_cons_neg hp] at h
      rw [List.cons_append, alookupN_cons_neg hp]
      exact ih h

theorem alookupN_append_new {l : List (String × Nat)} {x : String} (v : Nat)
    (h : x ∉ distKeys l) : alookupN (l ++ [(x, v)]) x = some v := by
  induction l with
  | nil => exact alookupN_cons_pos rfl
  | cons p ps ih =>
    have hne : ¬ p.1 = x := fun he => h (by simp [distKeys, he])
    rw [List.cons_append, alookupN_cons_neg hne]
    exact ih (fun hk => h (by simp [distKeys] at hk ⊢; exact Or.inr hk))

theorem distKeys_aupdateN (l : List (String × Nat)) (k : String) (v : Nat) :
    distKeys (aupdateN l k v) = distKeys l := by
  induction l with
  | nil => rfl
  | cons p ps ih =>
    by_cases hp : p.1 = k
    · simp only [aupdateN, List.map_cons, if_pos hp, distKeys] at ih ⊢
      simp [ih, hp]
    · simp only [aupdateN, List.map_cons, if_neg hp, distKeys] at ih ⊢
      simp [ih]

theorem alookupN_aupdateN_self {l : List (String × Nat)} {k : String}
    (v : Nat) (h : k ∈ distKeys l) : alookupN (aupdateN l k v) k = some v := by
  induction l with
  | nil => simp [distKeys] at h
  | cons p ps ih =>
    by_cases hp : p.1 = k
    · simp only [aupdateN, List.map_cons, if_pos hp]
      exact alookupN_cons_pos rfl
    · simp only [aupdateN, List.map_cons, if_neg hp]
      rw [alookupN_cons_neg hp]
      apply ih
      simp only [distKeys, List.map_cons, List.mem_cons] at h
      rcases h with h1 | h1
      · exact absurd h1.symm hp
      · exact h1

theorem alookupN_aupdateN_other {l : List (String × Nat)} {k k' : String}
    (v : Nat) (h : ¬ k' = k) : alookupN (aupdateN l k v) k' = alookupN l k' := by
  induction l with
  | nil => rfl
  | cons p ps ih =>
    by_cases hp : p.1 = k
    · simp only [aupdateN, List.map_cons, if_pos hp]
      have h1 : ¬ (k, v).1 = k' := fun he => h (by simpa using he.symm)
      have h2 : ¬ p.1 = k' := fun he => h (by rw [← he, hp])
      rw [alookupN_cons_neg h1, alookupN_cons_neg h2]
      exact ih
    · simp only [aupdateN, List.map_cons, if_neg hp]
      by_cases hp' : p.1 = k'
      · rw [alookupN_cons_pos hp', alookupN_cons_pos hp']
      · rw [alookupN_cons_neg hp', alookupN_cons_neg hp']
        exact ih

/-!  node_neighbourhood: ball lemmas. -/

theorem ball_succ_super (f : String → List String) (start : String) (k : Nat) :
    ∀ x ∈ ball f start k, x ∈ ball f start (k + 1) := by
  intro x hx
  simp only [ball, List.mem_dedup]
  exact List.mem_append_left _ hx

theorem ball_mono (f : String → List String) (start : String) {k k' : Nat}
    (h : k ≤ k') : ∀ x ∈ ball f start k, x ∈ ball f start k' := by
  induction h with
  | refl => exact fun x hx => hx
  | step _ ih => exact fun x hx => ball_succ_super f start _ x (ih x hx)

theorem ball_step (f : String → List String) (start : String) {k : Nat}
    {c m : String} (hc : c ∈ ball f start k) (hm : m ∈ f c) :
    m ∈ ball f start (k + 1) := by
  simp only [ball, List.mem_dedup]
  apply List.mem_append_right
  simp only [List.mem_flatMap]
  exact ⟨c, hc, hm⟩

theorem alookupN_append_single_other {l : List (String × Nat)} {m n : String}
    (w : Nat) (h : ¬ n = m) : alookupN (l ++ [(m, w)]) n = alookupN l n := by
  rcases hn : alookupN l n with _ | d
  · have hk : n ∉ distKeys l := by
      intro hmem
      rcases alookupN_isSome_of_mem hmem with ⟨d, hd⟩
      rw [hn] at hd
      exact Option.noConfusion hd
    apply alookupN_eq_none
    rw [distKeys_append]
    intro hc
    rcases List.mem_append.mp hc with h1 | h1
    · exact hk h1
    · simp [distKeys] at h1
      exact h h1
  · exact alookupN_append_left _ hn

theorem nnRelax_keys_mono (depth curDist : Nat) (hcd : curDist < depth) :
    ∀ l (s : NNState), ∀ x ∈ distKeys s.dist,
    x ∈ distKeys (nnRelax depth curDist l s).dist := by
  intro l
  induction l with
  | nil => intro s x hx; exact hx
  | cons m rest ih =>
    intro s x hx
    rcases hm : alookupN s.dist m with _ | d
    · simp only [nnRelax, hm, if_pos (by omega : curDist + 1 < depth + 1)]
      apply ih
      rw [distKeys_aupdateN, distKeys_append]
      exact List.mem_append_left _ hx
    · by_cases hlt : curDist + 1 < d
      · simp only [nnRelax, hm, if_pos hlt]
        apply ih
        rw [distKeys_aupdateN]
        exact hx
      · simp only [nnRelax, hm, if_neg hlt]
        exact ih s x hx

theorem nnRelax_deq_mono (depth curDist : Nat) (hcd : curDist < depth) :
    ∀ l (s : NNState), ∀ x ∈ s.deq, x ∈ (nnRelax depth curDist l s).deq := by
  intro l
  induction l with
  | nil => intro s x hx; exact hx
  | cons m rest ih =>
    intro s x hx
    rcases hm : alookupN s.dist m with _ | d
    · simp only [nnRelax, hm, if_pos (by omega : curDist + 1 < depth + 1)]
      exact ih _ x (List.mem_append_left _ hx)
    · by_cases hlt : curDist + 1 < d
      · simp only [nnRelax, hm, if_pos hlt]
        exact ih _ x (List.mem_append_left _ hx)
      · simp only [nnRelax, hm, if_neg hlt]
        exact ih s x hx

theorem nnRelax_nodup (depth curDist : Nat) (hcd : curDist < depth) :
    ∀ l (s : NNState), (distKeys s.dist).Nodup →
    (distKeys (nnRelax depth curDist l s).dist).Nodup := by
  intro l
  induction l with
  | nil => intro s h; exact h
  | cons m rest ih =>
    intro s h
    rcases hm : alookupN s.dist m with _ | d
    · simp only [nnRelax, hm, if_pos (by omega : curDist + 1 < depth + 1)]
      apply ih
      rw [distKeys_aupdateN, distKeys_append]
      have hmk : m ∉ distKeys s.dist := by
        intro hmem
        rcases alookupN_isSome_of_mem hmem with ⟨d, hd⟩
        rw [hm] at hd
        exact Option.noConfusion hd
      rw [List.nodup_append]
      refine ⟨h, by simp [distKeys], ?_⟩
      intro a ha ha2
      simp [distKeys] at ha2
      exact hmk (ha2 ▸ ha)
    · by_cases hlt : curDist + 1 < d
      · simp only [nnRelax, hm, if_pos hlt]
        apply ih
        rw [distKeys_aupdateN]
        exact h
      · simp only [nnRelax, hm, if_neg hlt]
        exact ih s h

theorem nnRelax_lookup_source (depth curDist : Nat) (hcd : curDist < depth) :
    ∀ l (s : NNState) (n : String) (d' : Nat),
    alookupN (nnRelax depth curDist l s).dist n = some d' →
    alookupN s.dist n = some d' ∨ (n ∈ l ∧ d' = curDist + 1) := by
  intro l
  induction l with
  | nil => intro s n d' h; exact Or.inl h
  | cons m rest ih =>
    intro s n d' h
    rcases hm : alookupN s.dist m with _ | d
    · simp only [nnRelax, hm, if_pos (by omega : curDist + 1 < depth + 1)] at h
      rcases ih _ n d' h with h1 | ⟨h1, h2⟩
      · by_cases hnm : n = m
        · refine Or.inr ⟨by rw [hnm]; exact List.mem_cons_self m rest, ?_⟩
          have hself : alookupN (aupdateN (s.dist ++ [(m, depth + 1)]) m (curDist + 1)) n =
              some (curDist + 1) := by
            rw [hnm]
            apply alookupN_aupdateN_self
            rw [distKeys_append]
            exact List.mem_append_right _ (by simp [distKeys])
          rw [hself] at h1
          exact (Option.some.inj h1).symm
        · rw [alookupN_aupdateN_other _ hnm, alookupN_append_single_other _ hnm] at h1
          exact Or.inl h1
      · exact Or.inr ⟨List.mem_cons_of_mem _ h1, h2⟩
    · by_cases hlt : curDist + 1 < d
      · simp only [nnRelax, hm, if_pos hlt] at h
        rcases ih _ n d' h with h1 | ⟨h1, h2⟩
        · by_cases hnm : n = m
          · refine Or.inr ⟨by rw [hnm]; exact List.mem_cons_self m rest, ?_⟩
            have hself : alookupN (aupdateN s.dist m (curDist + 1)) n = some (curDist + 1) := by
              rw [hnm]
              exact alookupN_aupdateN_self _ (alookupN_mem_keys hm)
            rw [hself] at h1
            exact (Option.some.inj h1).symm
          · rw [alookupN_aupdateN_other _ hnm] at h1
            exact Or.inl h1
        · exact Or.inr ⟨List.mem_cons_of_mem _ h1, h2⟩
      · simp only [nnRelax, hm, if_neg hlt] at h
        rcases ih s n d' h with h1 | ⟨h1, h2⟩
        · exact Or.inl h1
        · exact Or.inr ⟨List.mem_cons_of_mem _ h1, h2⟩

theorem nnRelax_lookup_mono (depth curDist : Nat) (hcd : curDist < depth) :
    ∀ l (s : NNState) (n : String) (d : Nat),
    alookupN s.dist n = some d →
    ∃ d', alookupN (nnRelax depth curDist l s).dist n = some d' ∧ d' ≤ d := by
  intro l
  induction l with
  | nil => intro s n d h; exact ⟨d, h, Nat.le_refl d⟩
  | cons m rest ih =>
    intro s n d h
    rcases hm : alookupN s.dist m with _ | dm
    · simp only [nnRelax, hm, if_pos (by omega : curDist + 1 < depth + 1)]
      by_cases hnm : n = m
      · rw [hnm, hm] at h
        exact Option.noConfusion h
      · apply ih
        rw [alookupN_aupdateN_other _ hnm, alookupN_append_single_other _ hnm]
        exact h
    · by_cases hlt : curDist + 1 < dm
      · simp only [nnRelax, hm, if_pos hlt]
        by_cases hnm : n = m
        · have hself : alookupN (aupdateN s.dist m (curDist + 1)) n = some (curDist + 1) := by
            rw [hnm]
            exact alookupN_aupdateN_self _ (alookupN_mem_keys hm)
          rcases ih { dist := aupdateN s.dist m (curDist + 1), deq := s.deq ++ [m] } n
            (curDist + 1) hself with ⟨d', hd', hle⟩
          refine ⟨d', hd', ?_⟩
          rw [hnm, hm] at h
          have : dm = d := Option.some.inj h
          omega
        · apply ih
          rw [alookupN_aupdateN_other _ hnm]
          exact h
      · simp only [nnRelax, hm, if_neg hlt]
        exact ih s n d h
    
theorem nnRelax_processed (depth curDist : Nat) (hcd : curDist < depth) :
    ∀ l (s : NNState), ∀ m ∈ l,
    ∃ dm, alookupN (nnRelax depth curDist l s).dist m = some dm ∧ dm ≤ curDist + 1 := by
  intro l
  induction l with
  | nil => intro s m hm; simp at hm
  | cons m0 rest ih =>
    intro s m hm
    rcases List.mem_cons.mp hm with h1 | h1
    · -- m is the head: after its own step its stored value is at most curDist+1,
      -- and later steps only decrease values
      subst h1
      rcases hm0 : alookupN s.dist m with _ | d0
      · simp only [nnRelax, hm0, if_pos (by omega : curDist + 1 < depth + 1)]
        have hself : alookupN (aupdateN (s.dist ++ [(m, depth + 1)]) m (curDist + 1)) m =
            some (curDist + 1) := by
          apply alookupN_aupdateN_self
          rw [distKeys_append]
          exact List.mem_append_right _ (by simp [distKeys])
        rcases nnRelax_lookup_mono depth curDist hcd rest
            { dist := aupdateN (s.dist ++ [(m, depth + 1)]) m (curDist + 1),
              deq := s.deq ++ [m] } m (curDist + 1) hself with ⟨d', hd', hle⟩
        exact ⟨d', hd', hle⟩
      · by_cases hlt : curDist + 1 < d0
        · simp only [nnRelax, hm0, if_pos hlt]
          have hself : alookupN (aupdateN s.dist m (curDist + 1)) m = some (curDist + 1) :=
            alookupN_aupdateN_self _ (alookupN_mem_keys hm0)
          rcases nnRelax_lookup_mono depth curDist hcd rest
              { dist := aupdateN s.dist m (curDist + 1),
                deq := s.deq ++ [m] } m (curDist + 1) hself with ⟨d', hd', hle⟩
          exact ⟨d', hd', hle⟩
        · simp only [nnRelax, hm0, if_neg hlt]
          rcases nnRelax_lookup_mono depth curDist hcd rest s m d0 hm0 with ⟨d', hd', hle⟩
          exact ⟨d', hd', by omega⟩
    · rcases hm0 : alookupN s.dist m0 with _ | d0
      · simp only [nnRelax, hm0, if_pos (by omega : curDist + 1 < depth + 1)]
        exact ih _ m h1
      · by_cases hlt : curDist + 1 < d0
        · simp only [nnRelax, hm0, if_pos hlt]
          exact ih _ m h1
        · simp only [nnRelax, hm0, if_neg hlt]
          exact ih s m h1

theorem nnRelax_changed_queued (depth curDist : Nat) (hcd : curDist < depth) :
    ∀ l (s : NNState) (n : String),
    ¬ alookupN (nnRelax depth curDist l s).dist n = alookupN s.dist n →
    n ∈ (nnRelax depth curDist l s).deq := by
  intro l
  induction l with
  | nil => intro s n h; exact absurd rfl h
  | cons m rest ih =>
    intro s n h
    rcases hm : alookupN s.dist m with _ | d0
    · simp only [nnRelax, hm, if_pos (by omega : curDist + 1 < depth + 1)] at h ⊢
      by_cases hch : alookupN (nnRelax depth curDist rest
          { dist := aupdateN (s.dist ++ [(m, depth + 1)]) m (curDist + 1),
            deq := s.deq ++ [m] }).dist n =
          alookupN (aupdateN (s.dist ++ [(m, depth + 1)]) m (curDist + 1)) n
      · -- the change happened at the head step, so n = m, which was enqueued
        by_cases hnm : n = m
        · apply nnRelax_deq_mono depth curDist hcd rest _ n
          rw [hnm]
          exact List.mem_append_right _ (by simp)
        · rw [hch, alookupN_aupdateN_other _ hnm, alookupN_append_single_other _ hnm] at h
          exact absurd rfl h
      · exact ih _ n hch
    · by_cases hlt : curDist + 1 < d0
      · simp only [nnRelax, hm, if_pos hlt] at h ⊢
        by_cases hch : alookupN (nnRelax depth curDist rest
            { dist := aupdateN s.dist m (curDist + 1), deq := s.deq ++ [m] }).dist n =
            alookupN (aupdateN s.dist m (curDist + 1)) n
        · by_cases hnm : n = m
          · apply nnRelax_deq_mono depth curDist hcd rest _ n
            rw [hnm]
            exact List.mem_append_right _ (by simp)
          · rw [hch, alookupN_aupdateN_other _ hnm] at h
            exact absurd rfl h
        · exact ih _ n hch
      · simp only [nnRelax, hm, if_neg hlt] at h ⊢
        exact ih s n h

theorem nnRelax_deq_source (depth curDist : Nat) (hcd : curDist < depth) :
    ∀ l (s : NNState), ∀ x ∈ (nnRelax depth curDist l s).deq,
    x ∈ s.deq ∨ x ∈ l := by
  intro l
  induction l with
  | nil => intro s x hx; exact Or.inl hx
  | cons m rest ih =>
    intro s x hx
    rcases hm : alookupN s.dist m with _ | d0
    · simp only [nnRelax, hm, if_pos (by omega : curDist + 1 < depth + 1)] at hx
      rcases ih _ x hx with h1 | h1
      · rcases List.mem_append.mp h1 with h2 | h2
        · exact Or.inl h2
        · simp at h2
          exact Or.inr (h2 ▸ List.mem_cons_self m rest)
      · exact Or.inr (List.mem_cons_of_mem _ h1)
    · by_cases hlt : curDist + 1 < d0
      · simp only [nnRelax, hm, if_pos hlt] at hx
        rcases ih _ x hx with h1 | h1
        · rcases List.mem_append.mp h1 with h2 | h2
          · exact Or.inl h2
          · simp at h2
            exact Or.inr (h2 ▸ List.mem_cons_self m rest)
        · exact Or.inr (List.mem_cons_of_mem _ h1)
      · simp only [nnRelax, hm, if_neg hlt] at hx
        rcases ih s x hx with h1 | h1
        · exact Or.inl h1
        · exact Or.inr (List.mem_cons_of_mem _ h1)

theorem nnInv_step (f : String → List String) (start : String) (depth : Nat)
    (s : NNState) (cur : String) (rest : List String)
    (hq : s.deq = cur :: rest) (hinv : nnInv f start depth s)
    (d0 : Nat) (hd0 : alookupN s.dist cur = some d0) (hlt : d0 < depth) :
    nnInv f start depth
      (nnRelax depth d0 (f cur) { dist := s.dist, deq := rest }) := by
  obtain ⟨N1, N2, N3, N4, N5⟩ := hinv
  have hcur_ball : cur ∈ ball f start d0 := (N3 cur d0 hd0).2
  have hball : ∀ m ∈ f cur, m ∈ ball f start (d0 + 1) :=
    fun m hm => ball_step f start hcur_ball hm
  refine ⟨?_, ?_, ?_, ?_, ?_⟩
  · exact nnRelax_nodup depth d0 hlt (f cur) { dist := s.dist, deq := rest } N1
  · rcases nnRelax_lookup_mono depth d0 hlt (f cur) { dist := s.dist, deq := rest }
      start 0 N2 with ⟨d', hd', hle⟩
    have hz : d' = 0 := by omega
    exact hz ▸ hd'
  · intro n d hn
    rcases nnRelax_lookup_source depth d0 hlt (f cur) { dist := s.dist, deq := rest }
      n d hn with h1 | ⟨h1, h2⟩
    · exact N3 n d h1
    · exact ⟨by omega, h2 ▸ hball n h1⟩
  · intro x hx
    rcases nnRelax_deq_source depth d0 hlt (f cur) { dist := s.dist, deq := rest }
      x hx with h1 | h1
    · apply nnRelax_keys_mono depth d0 hlt (f cur) { dist := s.dist, deq := rest } x
      exact N4 x (by rw [hq]; exact List.mem_cons_of_mem _ h1)
    · rcases nnRelax_processed depth d0 hlt (f cur) { dist := s.dist, deq := rest }
        x h1 with ⟨dm, hdm, -⟩
      exact alookupN_mem_keys hdm
  · intro n d hn hdlt
    by_cases hch : alookupN (nnRelax depth d0 (f cur)
        { dist := s.dist, deq := rest }).dist n =
        alookupN ({ dist := s.dist, deq := rest } : NNState).dist n
    · have hn' : alookupN s.dist n = some d := hch ▸ hn
      rcases N5 n d hn' hdlt with hrel | hque
      · left
        intro m hm
        rcases hrel m hm with ⟨dm, hdm, hdmle⟩
        rcases nnRelax_lookup_mono depth d0 hlt (f cur) { dist := s.dist, deq := rest }
          m dm hdm with ⟨dm', hdm', hle⟩
        exact ⟨dm', hdm', by omega⟩
      · rw [hq] at hque
        rcases List.mem_cons.mp hque with h1 | h1
        · left
          intro m hm
          rcases nnRelax_processed depth d0 hlt (f cur) { dist := s.dist, deq := rest }
            m (h1 ▸ hm) with ⟨dm, hdm, hdmle⟩
          have hdd : d = d0 := by
            rw [h1, hd0] at hn'
            exact (Option.some.inj hn').symm
          exact ⟨dm, hdm, by omega⟩
        · right
          exact nnRelax_deq_mono depth d0 hlt (f cur) { dist := s.dist, deq := rest } n h1
    · right
      exact nnRelax_changed_queued depth d0 hlt (f cur) { dist := s.dist, deq := rest } n hch

theorem nnInv_skip (f : String → List String) (start : String) (depth : Nat)
    (s : NNState) (cur : String) (rest : List String)
    (hq : s.deq = cur :: rest) (hinv : nnInv f start depth s)
    (d0 : Nat) (hd0 : alookupN s.dist cur = some d0) (hlt : ¬ d0 < depth) :
    nnInv f start depth ({ dist := s.dist, deq := rest } : NNState) := by
  obtain ⟨N1, N2, N3, N4, N5⟩ := hinv
  refine ⟨N1, N2, N3, ?_, ?_⟩
  · intro x hx
    exact N4 x (by rw [hq]; exact List.mem_cons_of_mem _ hx)
  · intro n d hn hdlt
    rcases N5 n d hn hdlt with hrel | hque
    · exact Or.inl hrel
    · rw [hq] at hque
      rcases List.mem_cons.mp hque with h1 | h1
      · exfalso
        rw [h1, hd0] at hn
        have : d0 = d := Option.some.inj hn
        omega
      · exact Or.inr h1

theorem nnLoop_inv (f : String → List String) (start : String) (depth : Nat) :
    ∀ fuel s sF, nnLoop f depth fuel s = some sF → nnInv f start depth s →
    nnInv f start depth sF ∧ sF.deq = [] := by
  intro fuel
  induction fuel with
  | zero => intro s sF h; simp [nnLoop] at h
  | succ fuel ih =>
    intro s sF h hinv
    rcases hq : s.deq with _ | ⟨cur, rest⟩
    · simp only [nnLoop, hq, Option.some.injEq] at h
      exact h ▸ ⟨hinv, hq⟩
    · simp only [nnLoop, hq] at h
      rcases alookupN_isSome_of_mem (hinv.2.2.2.1 cur (by rw [hq]; exact List.mem_cons_self cur rest)) with ⟨d0, hd0⟩
      rw [hd0] at h
      simp only [Option.getD_some] at h
      by_cases hlt : d0 < depth
      · rw [if_pos hlt] at h
        exact ih _ _ h (nnInv_step f start depth s cur rest hq hinv d0 hd0 hlt)
      · rw [if_neg hlt] at h
        exact ih _ _ h (nnInv_skip f start depth s cur rest hq hinv d0 hd0 hlt)

theorem nnRelax_potential (f : String → List String) (start : String)
    (depth curDist : Nat) (hcd : curDist < depth) :
    ∀ l (s : NNState), (∀ m ∈ l, m ∈ ball f start depth) →
    nnPotential f start depth (nnRelax depth curDist l s).dist +
      (nnRelax depth curDist l s).deq.length ≤
    nnPotential f start depth s.dist + s.deq.length := by
  intro l
  induction l with
  | nil => intro s _; exact Nat.le_refl _
  | cons m rest ih =>
    intro s hU
    have hmU : m ∈ (ball f start depth).toFinset :=
      List.mem_toFinset.mpr (hU m (List.mem_cons_self m rest))
    rcases hm : alookupN s.dist m with _ | d
    · -- fresh node: setdefault inserts depth + 1, then relax to curDist + 1
      simp only [nnRelax, hm, if_pos (by omega : curDist + 1 < depth + 1)]
      have hdrop : nnPotential f start depth
          (aupdateN (s.dist ++ [(m, depth + 1)]) m (curDist + 1)) + 1 ≤
          nnPotential f start depth s.dist := by
        unfold nnPotential
        rw [← Finset.add_sum_erase _ _ hmU, ← Finset.add_sum_erase _ _ hmU]
        have hsame : ∀ n ∈ (ball f start depth).toFinset.erase m,
            min ((alookupN (aupdateN (s.dist ++ [(m, depth + 1)]) m (curDist + 1)) n).getD
              (depth + 2)) (depth + 2) =
            min ((alookupN s.dist n).getD (depth + 2)) (depth + 2) := by
          intro n hn
          have hnm : ¬ n = m := (Finset.mem_erase.mp hn).1
          rw [alookupN_aupdateN_other _ hnm, alookupN_append_single_other _ hnm]
        rw [Finset.sum_congr rfl hsame]
        have hmold : (alookupN s.dist m).getD (depth + 2) = depth + 2 := by
          rw [hm]
          rfl
        have hmnew : alookupN (aupdateN (s.dist ++ [(m, depth + 1)]) m (curDist + 1)) m =
            some (curDist + 1) := by
          apply alookupN_aupdateN_self
          rw [distKeys_append]
          exact List.mem_append_right _ (by simp [distKeys])
        rw [hmold, hmnew]
        simp only [Option.getD_some]
        have h1 : min (curDist + 1) (depth + 2) = curDist + 1 := by omega
        have h2 : min (depth + 2) (depth + 2) = depth + 2 := by omega
        rw [h1, h2]
        omega
      have hrec := ih
          { dist := aupdateN (s.dist ++ [(m, depth + 1)]) m (curDist + 1),
            deq := s.deq ++ [m] }
          (fun m' hm' => hU m' (List.mem_cons_of_mem _ hm'))
      simp only [List.length_append, List.length_cons, List.length_nil] at hrec
      omega
    · by_cases hlt : curDist + 1 < d
      · simp only [nnRelax, hm, if_pos hlt]
        have hdrop : nnPotential f start depth (aupdateN s.dist m (curDist + 1)) + 1 ≤
            nnPotential f start depth s.dist := by
          unfold nnPotential
          rw [← Finset.add_sum_erase _ _ hmU, ← Finset.add_sum_erase _ _ hmU]
          have hsame : ∀ n ∈ (ball f start depth).toFinset.erase m,
              min ((alookupN (aupdateN s.dist m (curDist + 1)) n).getD (depth + 2))
                (depth + 2) =
              min ((alookupN s.dist n).getD (depth + 2)) (depth + 2) := by
            intro n hn
            have hnm : ¬ n = m := (Finset.mem_erase.mp hn).1
            rw [alookupN_aupdateN_other _ hnm]
          rw [Finset.sum_congr rfl hsame]
          have hmnew : alookupN (aupdateN s.dist m (curDist + 1)) m = some (curDist + 1) :=
            alookupN_aupdateN_self _ (alookupN_mem_keys hm)
          rw [hm, hmnew]
          simp only [Option.getD_some]
          have h1 : min (curDist + 1) (depth + 2) = curDist + 1 := by omega
          have h2 : curDist + 2 ≤ min d (depth + 2) := by omega
          omega
        have hrec := ih { dist := aupdateN s.dist m (curDist + 1), deq := s.deq ++ [m] }
          (fun m' hm' => hU m' (List.mem_cons_of_mem _ hm'))
        simp only [List.length_append, List.length_cons, List.length_nil] at hrec
        omega
      · simp only [nnRelax, hm, if_neg hlt]
        exact ih s (fun m' hm' => hU m' (List.mem_cons_of_mem _ hm'))

theorem nnLoop_isSome (f : String → List String) (start : String) (depth : Nat) :
    ∀ fuel s, nnInv f start depth s →
    nnPotential f start depth s.dist + s.deq.length < fuel →
    (nnLoop f depth fuel s).isSome := by
  intro fuel
  induction fuel with
  | zero => intro s _ h; omega
  | succ fuel ih =>
    intro s hinv hM
    rcases hq : s.deq with _ | ⟨cur, rest⟩
    · simp [nnLoop, hq]
    · simp only [nnLoop, hq]
      rcases alookupN_isSome_of_mem (hinv.2.2.2.1 cur
        (by rw [hq]; exact List.mem_cons_self cur rest)) with ⟨d0, hd0⟩
      rw [hd0]
      simp only [Option.getD_some]
      by_cases hlt : d0 < depth
      · rw [if_pos hlt]
        apply ih
        · exact nnInv_step f start depth s cur rest hq hinv d0 hd0 hlt
        · have hball : ∀ m ∈ f cur, m ∈ ball f start depth := by
            intro m hm
            have hcb : cur ∈ ball f start d0 := (hinv.2.2.1 cur d0 hd0).2
            exact ball_mono f start (by omega : d0 + 1 ≤ depth) m
              (ball_step f start hcb hm)
          have h1 := nnRelax_potential f start depth d0 hlt (f cur)
            { dist := s.dist, deq := rest } hball
          simp only [List.length_cons] at h1
          rw [hq] at hM
          simp only [List.length_cons] at hM
          omega
      · rw [if_neg hlt]
        apply ih
        · exact nnInv_skip f start depth s cur rest hq hinv d0 hd0 hlt
        · rw [hq] at hM
          simp only [List.length_cons] at hM ⊢
          omega

theorem nnInit_inv (f : String → List String) (start : String) (depth : Nat) :
    nnInv f start depth { dist := [(start, 0)], deq := [start] } := by
  have hlook : ∀ n d, alookupN [(start, 0)] n = some d → n = start ∧ d = 0 := by
    intro n d h
    by_cases hn : start = n
    · rw [alookupN_cons_pos hn] at h
      exact ⟨hn.symm, (Option.some.inj h).symm⟩
    · rw [alookupN_cons_neg hn] at h
      simp [alookupN] at h
  refine ⟨by simp [distKeys], alookupN_cons_pos rfl, ?_, ?_, ?_⟩
  · intro n d h
    rcases hlook n d h with ⟨rfl, rfl⟩
    exact ⟨Nat.zero_le _, by simp [ball]⟩
  · intro x hx
    simp only [List.mem_singleton] at hx
    simp [distKeys, hx]
  · intro n d h _
    rcases hlook n d h with ⟨rfl, -⟩
    right
    simp

theorem nodup_singleton_eq {α : Type} (l : List α) (a : α) (hnd : l.Nodup)
    (h : ∀ x, x ∈ l ↔ x = a) : l = [a] := by
  cases l with
  | nil =>
    have hmem := (h a).mpr rfl
    simp at hmem
  | cons b t =>
    have hb : b = a := (h b).mp (by simp)
    cases t with
    | nil => rw [hb]
    | cons c t' =>
      have hc : c = a := (h c).mp (by simp)
      exfalso
      rw [List.nodup_cons] at hnd
      exact hnd.1 (by rw [hb, ← hc]; simp)

theorem node_neighbourhood_char (f : String → List String) (start : String)
    (depth : Nat) :
    (node_neighbourhood f start depth).Nodup ∧
    ∀ n, n ∈ node_neighbourhood f start depth ↔
      ∃ k, k ≤ depth ∧ n ∈ ball f start k := by
  have hfuel : nnPotential f start depth [(start, 0)] + 1 < nnFuel f start depth := by
    have h1 : nnPotential f start depth [(start, 0)] ≤
        (ball f start depth).toFinset.card * (depth + 2) := by
      unfold nnPotential
      have h0 := Finset.sum_le_card_nsmul ((ball f start depth).toFinset)
        (fun n => min ((alookupN [(start, 0)] n).getD (depth + 2)) (depth + 2))
        (depth + 2) (fun x _ => min_le_right _ _)
      simpa [smul_eq_mul] using h0
    have h2 : (ball f start depth).toFinset.card ≤ (ball f start depth).length :=
      List.toFinset_card_le _
    have h3 : (ball f start depth).toFinset.card * (depth + 2) ≤
        (ball f start depth).length * (depth + 2) := Nat.mul_le_mul_right _ h2
    simp only [nnFuel]
    omega
  have hsome : (nnLoop f depth (nnFuel f start depth)
      { dist := [(start, 0)], deq := [start] }).isSome := by
    apply nnLoop_isSome f start depth _ _ (nnInit_inv f start depth)
    simp only [List.length_cons, List.length_nil]
    omega
  rcases hrun : nnLoop f depth (nnFuel f start depth)
      { dist := [(start, 0)], deq := [start] } with _ | sF
  · rw [hrun] at hsome
    simp at hsome
  · obtain ⟨hinv, hdeq⟩ := nnLoop_inv f start depth _ _ _ hrun (nnInit_inv f start depth)
    obtain ⟨N1, N2, N3, N4, N5⟩ := hinv
    have hnn : node_neighbourhood f start depth = distKeys sF.dist := by
      simp only [node_neighbourhood, hrun]
      rfl
    have hcomplete : ∀ k, k ≤ depth → ∀ n ∈ ball f start k,
        ∃ d, d ≤ k ∧ alookupN sF.dist n = some d := by
      intro k
      induction k with
      | zero =>
        intro _ n hn
        simp only [ball, List.mem_singleton] at hn
        exact ⟨0, Nat.le_refl 0, by rw [hn]; exact N2⟩
      | succ k ihk =>
        intro hk n hn
        simp only [ball, List.mem_dedup] at hn
        rcases List.mem_append.mp hn with h1 | h1
        · rcases ihk (by omega) n h1 with ⟨d, hd1, hd2⟩
          exact ⟨d, by omega, hd2⟩
        · rcases List.mem_flatMap.mp h1 with ⟨c, hc, hm⟩
          rcases ihk (by omega) c hc with ⟨dc, hdc1, hdc2⟩
          rcases N5 c dc hdc2 (by omega) with hrel | hque
          · rcases hrel n hm with ⟨dn, hdn, hdnle⟩
            exact ⟨dn, by omega, hdn⟩
          · rw [hdeq] at hque
            simp at hque
    refine ⟨by rw [hnn]; exact N1, ?_⟩
    intro n
    rw [hnn]
    constructor
    · intro hmem
      rcases alookupN_isSome_of_mem hmem with ⟨d, hd⟩
      rcases N3 n d hd with ⟨h1, h2⟩
      exact ⟨d, h1, h2⟩
    · rintro ⟨k, hk, hball⟩
      rcases hcomplete k hk n hball with ⟨d, -, hd⟩
      exact alookupN_mem_keys hd

/-- C9: for a fixed start node and neighbour function, depth 0 yields exactly
the singleton start list, and the size of the returned (duplicate-free) node
list is monotonically non-decreasing in the depth bound. -/
theorem node_neighbourhood_monotone (f : String → List String) (start : String) :
    node_neighbourhood f start 0 = [start] ∧
    ∀ d1 d2, d1 ≤ d2 →
      (node_neighbourhood f start d1).length ≤
        (node_neighbourhood f start d2).length := by
  constructor
  · rcases node_neighbourhood_char f start 0 with ⟨hnd, hch⟩
    apply nodup_singleton_eq _ _ hnd
    intro x
    rw [hch x]
    constructor
    · rintro ⟨k, hk, hb⟩
      have hk0 : k = 0 := by omega
      rw [hk0] at hb
      simpa [ball] using hb
    · intro hx
      exact ⟨0, Nat.le_refl 0, by simp [ball, hx]⟩
  · intro d1 d2 hle
    rcases node_neighbourhood_char f start d1 with ⟨hnd1, hch1⟩
    rcases node_neighbourhood_char f start d2 with ⟨hnd2, hch2⟩
    have hsub : ∀ x ∈ node_neighbourhood f start d1, x ∈ node_neighbourhood f start d2 := by
      intro x hx
      rcases (hch1 x).mp hx with ⟨k, hk, hb⟩
      exact (hch2 x).mpr ⟨k, by omega, hb⟩
    calc (node_neighbourhood f start d1).length
        = (node_neighbourhood f start d1).toFinset.card :=
          (List.toFinset_card_of_nodup hnd1).symm
      _ ≤ (node_neighbourhood f start d2).toFinset.card :=
          Finset.card_le_card
            (fun x hx => List.mem_toFinset.mpr (hsub x (List.mem_toFinset.mp hx)))
      _ = (node_neighbourhood f start d2).length := List.toFinset_card_of_nodup hnd2

/-- Witness for C9 with the empty neighbour function at depths 0 and 1. -/
theorem node_neighbourhood_monotone_witness :
    0 ≤ 1 ∧ (node_neighbourhood (fun _ => []) "A" 0).length ≤
      (node_neighbourhood (fun _ => []) "A" 1).length :=
  ⟨Nat.zero_le 1, (node_neighbourhood_monotone (fun _ => []) "A").2 0 1 (Nat.zero_le 1)⟩
